import Mathlib

/-!
Verification of the indexed skip list in `slice/skip/skip.go`.

The Go code is shallowly embedded: the mutable pointer graph of tower
nodes becomes an arena (`List Node`) addressed by ids, forward pointers
become `Option Nat` (with `none` for Go `nil`), every Go `uint64`
computation is carried out modulo `2^64`, and every operation that can
dereference a nil pointer, index out of range or loop forever is wrapped
in `Option`, with `none` modelling the crash / divergence.  The shared
random level generator is modelled by passing the generated tower height
explicitly; theorems quantify over all heights the generator can return.
-/

namespace Skip

/-- Modelled from the spec: an `Entry` is an opaque caller value with
three-way comparison on a totally ordered key; the payload is not used in
comparison.  The concrete `Entry` type of the repository lives outside
`skip.go`; following §3 of the spec we model it as a key/value pair of
naturals, compared on the key. -/
abbrev Entry := Nat × Nat

/-- The uint64 modulus: all Go width/position arithmetic is modulo `2^64`. -/
def U : Nat := 2 ^ 64

/-- Go uint64 subtraction `a - b` (wrapping), for `a b` arbitrary naturals. -/
def usub (a b : Nat) : Nat := (a + (U - b % U)) % U

/-- Modelled from the spec: the tower node type (defined outside `skip.go`);
per §3 it carries the stored entry (absent for the head sentinel), one
forward reference per level and one width per level.  `newNode` zero-fills
both arrays, so widths start at 0 (the "tail" encoding). -/
structure Node where
  entry   : Option Entry
  forward : List (Option Nat)
  widths  : List Nat
deriving Repr, DecidableEq

/-- Modelled from the spec: `newNode(entry, level)` allocates a node with
`level` levels, all forward pointers nil and all widths 0. -/
def newNode (e : Option Entry) (lvl : Nat) : Node :=
  ⟨e, List.replicate lvl none, List.replicate lvl 0⟩

/-- The skip list handle (`SkipList` in the source): max level, current
level, element count, head node id, the node arena, and the two reusable
scratch buffers `cache` / `posCache`. -/
structure SkipList where
  maxLevel : Nat
  level    : Nat
  num      : Nat
  head     : Nat
  arena    : List Node
  cache    : List (Option Nat)
  posCache : List Nat
deriving Repr, DecidableEq

/-- Read `n.forward[i]` of node `id`; outer `none` is a Go crash
(dangling id or level index out of range). -/
def fwdA (ar : List Node) (id i : Nat) : Option (Option Nat) :=
  (ar[id]?).bind fun n => n.forward[i]?

/-- Read `n.widths[i]` of node `id`. -/
def widA (ar : List Node) (id i : Nat) : Option Nat :=
  (ar[id]?).bind fun n => n.widths[i]?

/-- Read `n.entry` of node `id`. -/
def entA (ar : List Node) (id : Nat) : Option (Option Entry) :=
  (ar[id]?).map (·.entry)

/-- `n.Compare(e)` for node `id`: three-way comparison of the stored key
against `e`'s key; crashes (`none`) if the node is dangling or has no
entry (the head sentinel). -/
def cmpA (ar : List Node) (id : Nat) (e : Entry) : Option Int :=
  (ar[id]?).bind fun n => n.entry.map fun me =>
    if me.1 < e.1 then -1 else if me.1 = e.1 then 0 else 1

/-- Write `n.forward[i] = v` on node `id` (strict: crash on bad index). -/
def setFwdA (ar : List Node) (id i : Nat) (v : Option Nat) : Option (List Node) :=
  match ar[id]? with
  | none => none
  | some n =>
    if i < n.forward.length then
      some (ar.set id { n with forward := n.forward.set i v })
    else none

/-- Write `n.widths[i] = v` on node `id` (strict). -/
def setWidA (ar : List Node) (id i : Nat) (v : Nat) : Option (List Node) :=
  match ar[id]? with
  | none => none
  | some n =>
    if i < n.widths.length then
      some (ar.set id { n with widths := n.widths.set i v })
    else none

/-- Write `n.entry = v` on node `id` (strict). -/
def setEntA (ar : List Node) (id : Nat) (v : Option Entry) : Option (List Node) :=
  match ar[id]? with
  | none => none
  | some n => some (ar.set id { n with entry := v })

/-- What `generateLevel(maxLevel)` can return: a level in `[1, maxLevel-1]`
(the loop starts at 1 and is capped at `maxLevel - 1`). -/
def generateLevelSpec (maxLevel h : Nat) : Prop := 1 ≤ h ∧ h ≤ maxLevel - 1

/-- The inner scan of `search` at one offset:
`for n.forward[offset] != nil && n.forward[offset].Compare(e) < 0
 { pos += n.widths[offset]; n = n.forward[offset] }`. -/
def keyLoop (ar : List Node) (e : Entry) (off : Nat) :
    Nat → Nat → Nat → Option (Nat × Nat)
  | 0, _, _ => none
  | fuel + 1, nid, pos => do
    let f ← fwdA ar nid off
    match f with
    | none => some (nid, pos)
    | some m => do
      let c ← cmpA ar m e
      if c < 0 then do
        let w ← widA ar nid off
        keyLoop ar e off fuel m ((pos + w) % U)
      else
        some (nid, pos)

/-- The level descent of `search`: offsets `sl.level, ..., 0`, recording
the update trail (`cache`) and position trail (`posCache`) when requested. -/
def keyLevels (ar : List Node) (e : Entry) (fuel : Nat) (useUpd : Bool) :
    Nat → Nat → Nat → List (Option Nat) → List Nat →
    Option (Nat × Nat × List (Option Nat) × List Nat)
  | off, nid, pos, cache, pc => do
    let r ← keyLoop ar e off fuel nid pos
    let cache' := if useUpd then cache.set off (some r.1) else cache
    let pc' := if useUpd then pc.set off r.2 else pc
    match off with
    | 0 => some (r.1, r.2, cache', pc')
    | o + 1 => keyLevels ar e fuel useUpd o r.1 r.2 cache' pc'

/-- `sl.search(e, update, widths)`: returns the level-0 successor (the
first node with key ≥ `e`, or nil), the 1-based rank `pos + 1`, and the
updated trails. -/
def SkipList.search (sl : SkipList) (e : Entry) (useUpd : Bool) :
    Option (Option Nat × Nat × List (Option Nat) × List Nat) :=
  if sl.num = 0 then some (none, 1, sl.cache, sl.posCache)
  else do
    let r ← keyLevels sl.arena e (sl.arena.length + 1) useUpd sl.level sl.head 0
              sl.cache sl.posCache
    let f ← fwdA sl.arena r.1 0
    some (f, (r.2.1 + 1) % U, r.2.2.1, r.2.2.2)

/-- The inner scan of `searchByPosition` at one offset:
`for n.widths[offset] != 0 && pos+n.widths[offset] <= position { ... }`.
The cursor is `Option Nat` because the Go loop can step onto a nil node
and then dereference it when re-evaluating the condition (a crash,
modelled by `none`). -/
def posLoop (ar : List Node) (position off : Nat) :
    Nat → Option Nat → Nat → Option (Nat × Nat)
  | 0, _, _ => none
  | fuel + 1, nOpt, pos => do
    let nid ← nOpt
    let w ← widA ar nid off
    if w ≠ 0 ∧ (pos + w) % U ≤ position then do
      let f ← fwdA ar nid off
      posLoop ar position off fuel f ((pos + w) % U)
    else
      some (nid, pos)

/-- The level descent of `searchByPosition`. -/
def posLevels (ar : List Node) (position fuel : Nat) (useUpd : Bool) :
    Nat → Nat → Nat → List (Option Nat) → List Nat →
    Option (Nat × Nat × List (Option Nat) × List Nat)
  | off, nid, pos, cache, pc => do
    let r ← posLoop ar position off fuel (some nid) pos
    let cache' := if useUpd then cache.set off (some r.1) else cache
    let pc' := if useUpd then pc.set off r.2 else pc
    match off with
    | 0 => some (r.1, r.2, cache', pc')
    | o + 1 => posLevels ar position fuel useUpd o r.1 r.2 cache' pc'

/-- `sl.searchByPosition(position, update, widths)`: returns the node with
largest rank ≤ `position` (nil when the list is empty or `position`
exceeds the count), the value `pos + 1`, and the updated trails. -/
def SkipList.searchByPosition (sl : SkipList) (position : Nat) (useUpd : Bool) :
    Option (Option Nat × Nat × List (Option Nat) × List Nat) :=
  if sl.num = 0 then some (none, 1, sl.cache, sl.posCache)
  else if position > sl.num then some (none, 1, sl.cache, sl.posCache)
  else do
    let r ← posLevels sl.arena position (sl.arena.length + 1) useUpd sl.level
              sl.head 0 sl.cache sl.posCache
    some (some r.1, (r.2.1 + 1) % U, r.2.2.1, r.2.2.2)

/-- `for i := sl.level; i < nodeLevel; i++ { cache[i] = sl.head }`,
with `k` the number of remaining iterations. -/
def raiseCache (hd : Nat) : List (Option Nat) → Nat → Nat → List (Option Nat)
  | c, _, 0 => c
  | c, i, k + 1 => raiseCache hd (c.set i (some hd)) (i + 1) k

/-- One iteration of the splice loop of `insertNode` at level `i`. -/
def spliceOne (cache : List (Option Nat)) (pc : List Nat) (nnid pos i : Nat)
    (ar : List Node) : Option (List Node) := do
  let cOpt ← cache[i]?
  let cid ← cOpt
  let oldF ← fwdA ar cid i
  let ar1 ← setFwdA ar nnid i oldF
  let ar2 ← setFwdA ar1 cid i (some nnid)
  let fw ← widA ar2 cid i
  let pci ← pc[i]?
  let ar3 ← if fw = 0 then setWidA ar2 nnid i 0
            else setWidA ar2 nnid i (usub (pci + fw + 1) pos)
  let f2 ← fwdA ar3 cid i
  match f2 with
  | none => some ar3
  | some _ => setWidA ar3 cid i (usub pos pci)

/-- The splice loop `for i := 0; i < nodeLevel; i++` of `insertNode`,
with `k` the number of remaining iterations. -/
def spliceLevels (cache : List (Option Nat)) (pc : List Nat) (nnid pos : Nat) :
    Nat → Nat → List Node → Option (List Node)
  | _, 0, ar => some ar
  | i, k + 1, ar => do
    let ar' ← spliceOne cache pc nnid pos i ar
    spliceLevels cache pc nnid pos (i + 1) k ar'

/-- One iteration of the width-bump loop of `insertNode` at level `i`:
`if cache[i].forward[i] == nil { continue }; cache[i].widths[i]++`. -/
def bumpOne (cache : List (Option Nat)) (i : Nat) (ar : List Node) :
    Option (List Node) := do
  let cOpt ← cache[i]?
  let cid ← cOpt
  let f ← fwdA ar cid i
  match f with
  | none => some ar
  | some _ => do
    let w ← widA ar cid i
    setWidA ar cid i ((w + 1) % U)

/-- The bump loop `for i := nodeLevel; i < sl.level; i++` of `insertNode`. -/
def bumpLevels (cache : List (Option Nat)) :
    Nat → Nat → List Node → Option (List Node)
  | _, 0, ar => some ar
  | i, k + 1, ar => do
    let ar' ← bumpOne cache i ar
    bumpLevels cache (i + 1) k ar'

/-- The fresh-insert path of `insertNode` (after the duplicate check):
bump `num`, possibly raise the level, allocate the new node and splice it
into levels `0..nodeLevel-1`, then widen the pointers that jump over it.
The height `h` stands for the value returned by `generateLevel`. -/
def insertFresh (sl : SkipList) (e : Entry) (pos : Nat)
    (cache : List (Option Nat)) (pc : List Nat) (h : Nat) :
    Option (Option Entry × SkipList) :=
  let num' := (sl.num + 1) % U
  let cache' := if h > sl.level then raiseCache sl.head cache sl.level (h - sl.level)
                else cache
  let level' := if h > sl.level then h else sl.level
  let nnid := sl.arena.length
  let ar0 := sl.arena ++ [newNode (some e) h]
  do
    let ar1 ← spliceLevels cache' pc nnid pos 0 h ar0
    let ar2 ← bumpLevels cache' h (level' - h) ar1
    some (none, { sl with num := num', level := level', arena := ar2,
                          cache := cache', posCache := pc })

/-- `insertNode(sl, n, entry, pos, cache, posCache, allowDuplicate)`:
either updates the found node in place (returning the previous entry) or
inserts a fresh node of height `h`. -/
def insertNode (sl : SkipList) (n : Option Nat) (e : Entry) (pos : Nat)
    (cache : List (Option Nat)) (pc : List Nat) (allowDuplicate : Bool)
    (h : Nat) : Option (Option Entry × SkipList) :=
  match allowDuplicate, n with
  | false, some nid => do
    let c ← cmpA sl.arena nid e
    if c = 0 then do
      let oldE ← entA sl.arena nid
      let ar' ← setEntA sl.arena nid (some e)
      some (oldE, { sl with arena := ar', cache := cache, posCache := pc })
    else insertFresh sl e pos cache pc h
  | _, _ => insertFresh sl e pos cache pc h

/-- `sl.insert(entry)` (by key, `allowDuplicate = false`). -/
def SkipList.insert (sl : SkipList) (e : Entry) (h : Nat) :
    Option (Option Entry × SkipList) := do
  let r ← sl.search e true
  insertNode sl r.1 e r.2.1 r.2.2.1 r.2.2.2 false h

/-- `sl.insertAtPosition(position, entry)`: clamp to `[0, num]`, search by
rank, then splice with `allowDuplicate = true`. -/
def SkipList.insertAtPosition (sl : SkipList) (position : Nat) (e : Entry)
    (h : Nat) : Option SkipList := do
  let p := if position > sl.num then sl.num else position
  let r ← sl.searchByPosition p true
  let r2 ← insertNode sl r.1 e r.2.1 r.2.2.1 r.2.2.2 true h
  some r2.2

/-- One iteration of the unlink loop of `delete` at level `i`. -/
def delOne (nid : Nat) (cache : List (Option Nat)) (i : Nat)
    (ar : List Node) : Option (List Node) := do
  let cOpt ← cache[i]?
  let cid ← cOpt
  let f ← fwdA ar cid i
  if f = some nid then do
    let nw ← widA ar nid i
    let nf ← fwdA ar nid i
    let cw ← widA ar cid i
    let ar1 ← setWidA ar cid i ((cw + usub nw 1) % U)
    setFwdA ar1 cid i nf
  else
    match f with
    | none => some ar
    | some _ => do
      let cw ← widA ar cid i
      setWidA ar cid i (usub cw 1)

/-- The unlink loop `for i := 0; i <= sl.level; i++` of `delete`. -/
def delLevels (nid : Nat) (cache : List (Option Nat)) :
    Nat → Nat → List Node → Option (List Node)
  | _, 0, ar => some ar
  | i, k + 1, ar => do
    let ar' ← delOne nid cache i ar
    delLevels nid cache (i + 1) k ar'

/-- The level-shrink loop of `delete`:
`for sl.level > 1 && sl.head.forward[sl.level-1] == nil
 { sl.head.widths[sl.level] = 0; sl.level-- }`. -/
def shrinkLoop (hd : Nat) : Nat → List Node → Option (List Node × Nat)
  | 0, ar => some (ar, 0)
  | 1, ar => some (ar, 1)
  | l + 2, ar => do
    let f ← fwdA ar hd (l + 1)
    match f with
    | none => do
      let ar' ← setWidA ar hd (l + 2) 0
      shrinkLoop hd (l + 1) ar'
    | some _ => some (ar, l + 2)

/-- `sl.delete(e)`: search by key, unlink and reweight on an exact match,
then shrink the level; returns the removed entry (nil when absent). -/
def SkipList.delete (sl : SkipList) (e : Entry) :
    Option (Option Entry × SkipList) := do
  let r ← sl.search e true
  let c := r.2.2.1
  let pc := r.2.2.2
  match r.1 with
  | none => some (none, { sl with cache := c, posCache := pc })
  | some nid => do
    let cv ← cmpA sl.arena nid e
    if cv ≠ 0 then some (none, { sl with cache := c, posCache := pc })
    else do
      let num' := usub sl.num 1
      let ar1 ← delLevels nid c 0 (sl.level + 1) sl.arena
      let s ← shrinkLoop sl.head sl.level ar1
      let oldE ← entA s.1 nid
      some (oldE, { sl with num := num', level := s.2, arena := s.1,
                            cache := c, posCache := pc })

/-- `resetMaxLevel`: clamp the level to 1 from below, else walk down while
the topmost level's head pointer is nil. -/
def resetLevel (hd : Nat) (ar : List Node) : Nat → Option Nat
  | 0 => some 1
  | 1 => do
    let _ ← fwdA ar hd 0
    some 1
  | l + 2 => do
    let f ← fwdA ar hd (l + 1)
    match f with
    | none => resetLevel hd ar (l + 1)
    | some _ => some (l + 2)

/-- One iteration of the handover loop of `splitAt` at level `i`. -/
def splitOne (cache : List (Option Nat)) (pc : List Nat) (rhid index i : Nat)
    (ar : List Node) : Option (List Node) := do
  let cOpt ← cache[i]?
  let cid ← cOpt
  let f ← fwdA ar cid i
  let ar1 ← setFwdA ar rhid i f
  let w ← widA ar1 cid i
  let ar2 ← if w ≠ 0 then do
      let pci ← pc[i]?
      setWidA ar1 rhid i (usub w (usub index pci))
    else some ar1
  let ar3 ← setWidA ar2 cid i 0
  setFwdA ar3 cid i none

/-- The handover loop `for i := 0; i <= sl.level; i++` of `splitAt`. -/
def splitLevels (cache : List (Option Nat)) (pc : List Nat) (rhid index : Nat) :
    Nat → Nat → List Node → Option (List Node)
  | _, 0, ar => some ar
  | i, k + 1, ar => do
    let ar' ← splitOne cache pc rhid index i ar
    splitLevels cache pc rhid index (i + 1) k ar'

/-- `splitAt(sl, index)`: build the right handle, search by rank to fill
the trail, hand each level's tail over to the right head, partition the
counts and re-derive both levels. -/
def splitAt (sl : SkipList) (index : Nat) : Option (SkipList × SkipList) := do
  let rCache := List.replicate sl.maxLevel (none : Option Nat)
  let rPc := List.replicate sl.maxLevel (0 : Nat)
  let r ← sl.searchByPosition index true
  let c := r.2.2.1
  let pc := r.2.2.2
  let rhid := sl.arena.length
  let ar0 := sl.arena ++ [newNode none sl.maxLevel]
  let ar1 ← splitLevels c pc rhid index 0 (sl.level + 1) ar0
  let rnum := usub sl.num index
  let lnum := usub sl.num rnum
  let llevel ← resetLevel sl.head ar1 sl.level
  let rlevel ← resetLevel rhid ar1 sl.level
  some ({ sl with num := lnum, level := llevel, arena := ar1,
                  cache := c, posCache := pc },
        { maxLevel := sl.maxLevel, level := rlevel, num := rnum, head := rhid,
          arena := ar1, cache := rCache, posCache := rPc })

/-- `sl.SplitAt(index)`: convert the inclusive last-left index to the cut
rank; when `index+1 >= num`, return `(self, nil)` without mutating. -/
def SkipList.SplitAt (sl : SkipList) (index : Nat) :
    Option (SkipList × Option SkipList) :=
  let idx := (index + 1) % U
  if idx ≥ sl.num then some (sl, none)
  else do
    let r ← splitAt sl idx
    some (r.1, some r.2)

/-- One key of `sl.Get`: the stored entry when the successor matches
exactly, else nil. -/
def SkipList.get1 (sl : SkipList) (e : Entry) : Option (Option Entry) := do
  let r ← sl.search e false
  match r.1 with
  | none => some none
  | some nid => do
    let cv ← cmpA sl.arena nid e
    if cv = 0 then entA sl.arena nid else some none

/-- `sl.Get(entries...)`. -/
def SkipList.Get (sl : SkipList) (es : List Entry) :
    Option (List (Option Entry)) :=
  es.mapM sl.get1

/-- `sl.GetWithPosition(e)`: `(nil, 0)` only when the search returns a nil
successor; otherwise the successor's entry and `pos - 1`, whether or not
the keys match. -/
def SkipList.GetWithPosition (sl : SkipList) (e : Entry) :
    Option (Option Entry × Nat) := do
  let r ← sl.search e false
  match r.1 with
  | none => some (none, 0)
  | some nid => do
    let en ← entA sl.arena nid
    some (en, usub r.2.1 1)

/-- `sl.ByPosition(position)`: entry at 0-based rank, nil out of range. -/
def SkipList.ByPosition (sl : SkipList) (position : Nat) :
    Option (Option Entry) := do
  let r ← sl.searchByPosition ((position + 1) % U) false
  match r.1 with
  | none => some none
  | some nid => entA sl.arena nid

/-- `sl.ReplaceAtPosition(position, entry)`: overwrite in place, no-op out
of range. -/
def SkipList.ReplaceAtPosition (sl : SkipList) (position : Nat) (e : Entry) :
    Option SkipList := do
  let r ← sl.searchByPosition ((position + 1) % U) false
  match r.1 with
  | none => some sl
  | some nid => do
    let ar ← setEntA sl.arena nid (some e)
    some { sl with arena := ar }

/-- `sl.Len()`. -/
def SkipList.Len (sl : SkipList) : Nat := sl.num

/-- The argument classes `init`'s type switch distinguishes: the uint
widths it recognises, and `other` for every argument hitting no case. -/
inductive LevelClass
  | u8 | u16 | u32 | u64 | uN | other
deriving Repr, DecidableEq

/-- The `maxLevel` that `init`'s switch assigns for each argument class;
`other` matches no case, leaving the zero value 0. -/
def classMaxLevel : LevelClass → Nat
  | .u8 => 8
  | .u16 => 16
  | .u32 => 32
  | .u64 => 64
  | .uN => 64
  | .other => 0

/-- `New(ifc)`: allocate a zero handle and `init` it.  The function has no
error return; an unrecognised argument silently yields `maxLevel = 0`. -/
def New (c : LevelClass) : SkipList :=
  let m := classMaxLevel c
  { maxLevel := m, level := 0, num := 0, head := 0,
    arena := [newNode none m],
    cache := List.replicate m none, posCache := List.replicate m 0 }

/-- A public mutation together with the height its level draw produced
(deletes draw no level). -/
inductive Op
  | ins (e : Entry) (h : Nat)
  | insAt (p : Nat) (e : Entry) (h : Nat)
  | del (e : Entry)
deriving Repr, DecidableEq

/-- Execute one operation. -/
def step (sl : SkipList) : Op → Option SkipList
  | .ins e h => (sl.insert e h).map (·.2)
  | .insAt p e h => sl.insertAtPosition p e h
  | .del e => (sl.delete e).map (·.2)

/-- Execute a sequence of operations, propagating crashes. -/
def runOps (sl : SkipList) (ops : List Op) : Option SkipList :=
  ops.foldlM step sl

/-! ### Basic arithmetic and accessor lemmas -/

theorem U_pos : 0 < U := by
  unfold U
  positivity

theorem usub_small {a b : Nat} (hb : b ≤ a) (ha : a < U) : usub a b = a - b := by
  unfold usub
  rw [Nat.mod_eq_of_lt (lt_of_le_of_lt hb ha)]
  have h1 : a + (U - b) = (a - b) + U := by omega
  rw [h1, Nat.add_mod_right, Nat.mod_eq_of_lt (by omega)]

theorem bbind_some {α : Type} {β : Type} (a : α) (f : α → Option β) :
    (Bind.bind (some a) f : Option β) = f a := rfl

theorem setFwdA_inv {ar : List Node} {id i : Nat} {v : Option Nat} {ar' : List Node}
    (h : setFwdA ar id i v = some ar') :
    ∃ n, ar[id]? = some n ∧ i < n.forward.length ∧
      ar' = ar.set id { n with forward := n.forward.set i v } := by
  unfold setFwdA at h
  cases hn : ar[id]? with
  | none => rw [hn] at h; cases h
  | some n =>
    rw [hn] at h
    dsimp only at h
    by_cases hi : i < n.forward.length
    · rw [if_pos hi] at h
      exact ⟨n, rfl, hi, (Option.some.inj h).symm⟩
    · rw [if_neg hi] at h; cases h

theorem setWidA_inv {ar : List Node} {id i v : Nat} {ar' : List Node}
    (h : setWidA ar id i v = some ar') :
    ∃ n, ar[id]? = some n ∧ i < n.widths.length ∧
      ar' = ar.set id { n with widths := n.widths.set i v } := by
  unfold setWidA at h
  cases hn : ar[id]? with
  | none => rw [hn] at h; cases h
  | some n =>
    rw [hn] at h
    dsimp only at h
    by_cases hi : i < n.widths.length
    · rw [if_pos hi] at h
      exact ⟨n, rfl, hi, (Option.some.inj h).symm⟩
    · rw [if_neg hi] at h; cases h

theorem setEntA_inv {ar : List Node} {id : Nat} {v : Option Entry} {ar' : List Node}
    (h : setEntA ar id v = some ar') :
    ∃ n, ar[id]? = some n ∧ ar' = ar.set id { n with entry := v } := by
  unfold setEntA at h
  cases hn : ar[id]? with
  | none => rw [hn] at h; cases h
  | some n =>
    rw [hn] at h
    dsimp only at h
    exact ⟨n, rfl, (Option.some.inj h).symm⟩

theorem length_setFwdA {ar : List Node} {id i : Nat} {v : Option Nat} {ar' : List Node}
    (h : setFwdA ar id i v = some ar') : ar'.length = ar.length := by
  obtain ⟨n, -, -, rfl⟩ := setFwdA_inv h
  exact List.length_set ar id _

theorem length_setWidA {ar : List Node} {id i v : Nat} {ar' : List Node}
    (h : setWidA ar id i v = some ar') : ar'.length = ar.length := by
  obtain ⟨n, -, -, rfl⟩ := setWidA_inv h
  exact List.length_set ar id _

theorem length_setEntA {ar : List Node} {id : Nat} {v : Option Entry} {ar' : List Node}
    (h : setEntA ar id v = some ar') : ar'.length = ar.length := by
  obtain ⟨n, -, rfl⟩ := setEntA_inv h
  exact List.length_set ar id _

theorem getElem?_set_self {ar : List Node} {id : Nat} {n n' : Node}
    (hn : ar[id]? = some n) : (ar.set id n')[id]? = some n' := by
  have hlt : id < ar.length := by
    by_contra hge
    rw [List.getElem?_eq_none (Nat.le_of_not_lt hge)] at hn
    cases hn
  rw [List.getElem?_set_eq hlt]

/-- `fwdA` is unchanged by a widths write. -/
theorem fwdA_setWidA {ar : List Node} {id i v : Nat} {ar' : List Node}
    (h : setWidA ar id i v = some ar') (j k : Nat) : fwdA ar' j k = fwdA ar j k := by
  obtain ⟨n, hn, -, rfl⟩ := setWidA_inv h
  unfold fwdA
  rcases eq_or_ne id j with rfl | hne
  · rw [getElem?_set_self hn, hn]
    rfl
  · rw [List.getElem?_set_ne hne]

/-- `fwdA` is unchanged by an entry write. -/
theorem fwdA_setEntA {ar : List Node} {id : Nat} {v : Option Entry} {ar' : List Node}
    (h : setEntA ar id v = some ar') (j k : Nat) : fwdA ar' j k = fwdA ar j k := by
  obtain ⟨n, hn, rfl⟩ := setEntA_inv h
  unfold fwdA
  rcases eq_or_ne id j with rfl | hne
  · rw [getElem?_set_self hn, hn]
    rfl
  · rw [List.getElem?_set_ne hne]

/-- `widA` is unchanged by a forward write. -/
theorem widA_setFwdA {ar : List Node} {id i : Nat} {v : Option Nat} {ar' : List Node}
    (h : setFwdA ar id i v = some ar') (j k : Nat) : widA ar' j k = widA ar j k := by
  obtain ⟨n, hn, -, rfl⟩ := setFwdA_inv h
  unfold widA
  rcases eq_or_ne id j with rfl | hne
  · rw [getElem?_set_self hn, hn]
    rfl
  · rw [List.getElem?_set_ne hne]

/-- `widA` is unchanged by an entry write. -/
theorem widA_setEntA {ar : List Node} {id : Nat} {v : Option Entry} {ar' : List Node}
    (h : setEntA ar id v = some ar') (j k : Nat) : widA ar' j k = widA ar j k := by
  obtain ⟨n, hn, rfl⟩ := setEntA_inv h
  unfold widA
  rcases eq_or_ne id j with rfl | hne
  · rw [getElem?_set_self hn, hn]
    rfl
  · rw [List.getElem?_set_ne hne]

/-- `entA` is unchanged by a forward write. -/
theorem entA_setFwdA {ar : List Node} {id i : Nat} {v : Option Nat} {ar' : List Node}
    (h : setFwdA ar id i v = some ar') (j : Nat) : entA ar' j = entA ar j := by
  obtain ⟨n, hn, -, rfl⟩ := setFwdA_inv h
  unfold entA
  rcases eq_or_ne id j with rfl | hne
  · rw [getElem?_set_self hn, hn]
    rfl
  · rw [List.getElem?_set_ne hne]

/-- `entA` is unchanged by a widths write. -/
theorem entA_setWidA {ar : List Node} {id i v : Nat} {ar' : List Node}
    (h : setWidA ar id i v = some ar') (j : Nat) : entA ar' j = entA ar j := by
  obtain ⟨n, hn, -, rfl⟩ := setWidA_inv h
  unfold entA
  rcases eq_or_ne id j with rfl | hne
  · rw [getElem?_set_self hn, hn]
    rfl
  · rw [List.getElem?_set_ne hne]

theorem cmpA_eq_entA {ar₁ ar₂ : List Node} {j : Nat}
    (h : entA ar₁ j = entA ar₂ j) (e : Entry) : cmpA ar₁ j e = cmpA ar₂ j e := by
  unfold entA at h
  unfold cmpA
  cases h1 : ar₁[j]? with
  | none =>
    rw [h1] at h
    cases h2 : ar₂[j]? with
    | none => rfl
    | some m => rw [h2] at h; cases h
  | some n =>
    rw [h1] at h
    cases h2 : ar₂[j]? with
    | none => rw [h2] at h; cases h
    | some m =>
      rw [h2] at h
      simp only [Option.map, Option.some.injEq] at h
      simp [h]

/-- `fwdA` at a different node or level is unchanged by a forward write. -/
theorem fwdA_setFwdA_ne {ar : List Node} {id i : Nat} {v : Option Nat} {ar' : List Node}
    (h : setFwdA ar id i v = some ar') (j k : Nat) (hne : j ≠ id ∨ k ≠ i) :
    fwdA ar' j k = fwdA ar j k := by
  obtain ⟨n, hn, -, rfl⟩ := setFwdA_inv h
  unfold fwdA
  rcases eq_or_ne id j with rfl | hid
  · rw [getElem?_set_self hn, hn]
    rcases hne with hj | hk
    · exact absurd rfl hj
    · simp only [Option.bind]
      rw [List.getElem?_set_ne (Ne.symm hk)]
  · rw [List.getElem?_set_ne hid]

theorem fwdA_setFwdA_self {ar : List Node} {id i : Nat} {v : Option Nat} {ar' : List Node}
    (h : setFwdA ar id i v = some ar') : fwdA ar' id i = some v := by
  obtain ⟨n, hn, hi, rfl⟩ := setFwdA_inv h
  unfold fwdA
  rw [getElem?_set_self hn]
  simp only [Option.bind]
  rw [List.getElem?_set_eq (by simpa using hi)]

theorem widA_setWidA_ne {ar : List Node} {id i v : Nat} {ar' : List Node}
    (h : setWidA ar id i v = some ar') (j k : Nat) (hne : j ≠ id ∨ k ≠ i) :
    widA ar' j k = widA ar j k := by
  obtain ⟨n, hn, -, rfl⟩ := setWidA_inv h
  unfold widA
  rcases eq_or_ne id j with rfl | hid
  · rw [getElem?_set_self hn, hn]
    rcases hne with hj | hk
    · exact absurd rfl hj
    · simp only [Option.bind]
      rw [List.getElem?_set_ne (Ne.symm hk)]
  · rw [List.getElem?_set_ne hid]

theorem widA_setWidA_self {ar : List Node} {id i v : Nat} {ar' : List Node}
    (h : setWidA ar id i v = some ar') : widA ar' id i = some v := by
  obtain ⟨n, hn, hi, rfl⟩ := setWidA_inv h
  unfold widA
  rw [getElem?_set_self hn]
  simp only [Option.bind]
  rw [List.getElem?_set_eq (by simpa using hi)]

theorem entA_setEntA_ne {ar : List Node} {id : Nat} {v : Option Entry} {ar' : List Node}
    (h : setEntA ar id v = some ar') (j : Nat) (hne : j ≠ id) :
    entA ar' j = entA ar j := by
  obtain ⟨n, hn, rfl⟩ := setEntA_inv h
  unfold entA
  rw [List.getElem?_set_ne (Ne.symm hne)]

theorem entA_setEntA_self {ar : List Node} {id : Nat} {v : Option Entry} {ar' : List Node}
    (h : setEntA ar id v = some ar') : entA ar' id = some v := by
  obtain ⟨n, hn, rfl⟩ := setEntA_inv h
  unfold entA
  rw [getElem?_set_self hn]
  rfl

/-- Reads below the old length are unchanged by appending a node. -/
theorem fwdA_append {ar : List Node} {nn : Node} {j : Nat} (hj : j < ar.length) (k : Nat) :
    fwdA (ar ++ [nn]) j k = fwdA ar j k := by
  unfold fwdA
  rw [List.getElem?_append_left hj]

theorem widA_append {ar : List Node} {nn : Node} {j : Nat} (hj : j < ar.length) (k : Nat) :
    widA (ar ++ [nn]) j k = widA ar j k := by
  unfold widA
  rw [List.getElem?_append_left hj]

theorem entA_append {ar : List Node} {nn : Node} {j : Nat} (hj : j < ar.length) :
    entA (ar ++ [nn]) j = entA ar j := by
  unfold entA
  rw [List.getElem?_append_left hj]

theorem getElem?_append_self {ar : List Node} {nn : Node} :
    (ar ++ [nn])[ar.length]? = some nn := by
  simp

/-! ### Chains, keys and heights -/

/-- Total read of the stored key (meaningful when the entry exists). -/
def keyD (ar : List Node) (id : Nat) : Nat :=
  (((ar[id]?).bind (·.entry)).map (·.1)).getD 0

/-- Total read of a node's height (its number of levels). -/
def hgt (ar : List Node) (id : Nat) : Nat :=
  ((ar[id]?).map (·.forward.length)).getD 0

/-- The forward chain at level `i` continuing after node `s` is exactly
`l`, ending in nil. -/
def Links (ar : List Node) (i : Nat) : Nat → List Nat → Prop
  | s, [] => fwdA ar s i = some none
  | s, m :: rest => fwdA ar s i = some (some m) ∧ Links ar i m rest

instance decLinks (ar : List Node) (i : Nat) :
    (s : Nat) → (l : List Nat) → Decidable (Links ar i s l)
  | _, [] => inferInstanceAs (Decidable (_ = _))
  | _, m :: rest =>
    haveI := decLinks ar i m rest
    inferInstanceAs (Decidable (_ ∧ _))

/-- Node `id` has readable forward and width slots at level `i`. -/
def SlotsAt (ar : List Node) (id i : Nat) : Prop :=
  (∃ f, fwdA ar id i = some f) ∧ ∃ w, widA ar id i = some w

/-- Node `id` stores an entry. -/
def HasEnt (ar : List Node) (id : Nat) : Prop :=
  ∃ ent, entA ar id = some (some ent)

theorem cmpA_of_hasEnt {ar : List Node} {m : Nat} (h : HasEnt ar m) (e : Entry) :
    ∃ c, cmpA ar m e = some c ∧ (c < 0 ↔ keyD ar m < e.1) ∧
      (c = 0 ↔ keyD ar m = e.1) := by
  obtain ⟨ent, he⟩ := h
  unfold entA at he
  cases hn : ar[m]? with
  | none => rw [hn] at he; cases he
  | some n =>
    rw [hn] at he
    have hent : n.entry = some ent := by
      simpa using he
    have hkey : keyD ar m = ent.1 := by
      unfold keyD
      rw [hn]
      simp [hent]
    have hcmp : cmpA ar m e =
        some (if ent.1 < e.1 then -1 else if ent.1 = e.1 then 0 else 1) := by
      unfold cmpA
      rw [hn]
      simp [hent]
    rw [hcmp, hkey]
    by_cases h1 : ent.1 < e.1
    · refine ⟨-1, by rw [if_pos h1], ?_, ?_⟩
      · exact ⟨fun _ => h1, fun _ => by decide⟩
      · exact ⟨fun hc => absurd hc (by decide), fun hk => absurd hk (by omega)⟩
    · by_cases h2 : ent.1 = e.1
      · refine ⟨0, by rw [if_neg h1, if_pos h2], ?_, ?_⟩
        · exact ⟨fun hc => absurd hc (by decide), fun hk => absurd hk h1⟩
        · exact ⟨fun _ => h2, fun _ => rfl⟩
      · refine ⟨1, by rw [if_neg h1, if_neg h2], ?_, ?_⟩
        · exact ⟨fun hc => absurd hc (by decide), fun hk => absurd hk h1⟩
        · exact ⟨fun hc => absurd hc (by decide), fun hk => absurd hk h2⟩

theorem Links_suffix {ar : List Node} {i : Nat} :
    ∀ {A : List Nat} {s x : Nat} {C : List Nat},
      Links ar i s (A ++ x :: C) → Links ar i x C
  | [], _, _, _, h => h.2
  | _ :: A', _, _, _, h => Links_suffix (A := A') h.2

/-- A chain is preserved when the forward slots of all its readers agree. -/
theorem Links_mono {ar ar' : List Node} {i : Nat} {s : Nat} {l : List Nat}
    (h : Links ar i s l) (hag : ∀ id ∈ s :: l, fwdA ar' id i = fwdA ar id i) :
    Links ar' i s l := by
  induction l generalizing s with
  | nil =>
    unfold Links at h ⊢
    rw [hag s (by simp)]
    exact h
  | cons m rest ih =>
    refine ⟨?_, ih h.2 fun id hid => hag id ?_⟩
    · rw [hag s (by simp)]
      exact h.1
    · simp only [List.mem_cons] at hid ⊢
      tauto

/-- Where the by-key scan stops: the last node of the sub-chain `l` whose
key is below the target, or `s` when there is none. -/
def stopKey (ar : List Node) (e : Entry) (s : Nat) (l : List Nat) : Nat :=
  (l.takeWhile fun m => decide (keyD ar m < e.1)).getLastD s

theorem keyLoop_run (ar : List Node) (e : Entry) (off : Nat) :
    ∀ (l : List Nat) (s pos fuel : Nat),
      Links ar off s l →
      SlotsAt ar s off →
      (∀ m ∈ l, SlotsAt ar m off ∧ HasEnt ar m) →
      l.length < fuel →
      ∃ p, keyLoop ar e off fuel s pos = some (stopKey ar e s l, p)
  | [], s, pos, fuel, hL, _, _, hf => by
    obtain ⟨fuel', rfl⟩ : ∃ f, fuel = f + 1 :=
      ⟨fuel - 1, by omega⟩
    refine ⟨pos, ?_⟩
    unfold Links at hL
    rw [keyLoop, hL]
    rfl
  | m :: rest, s, pos, fuel, hL, hs, hmem, hf => by
    obtain ⟨fuel', rfl⟩ : ∃ f, fuel = f + 1 :=
      ⟨fuel - 1, by omega⟩
    obtain ⟨hfwd, hL'⟩ := hL
    obtain ⟨c, hc, hclt, -⟩ := cmpA_of_hasEnt (hmem m (by simp)).2 e
    obtain ⟨-, w, hw⟩ := hs
    by_cases hlt : keyD ar m < e.1
    · have hcneg : c < 0 := hclt.mpr hlt
      obtain ⟨p, hp⟩ := keyLoop_run ar e off rest m ((pos + w) % U) fuel' hL'
        (hmem m (by simp)).1 (fun x hx => hmem x (by simp [hx])) (by simpa using hf)
      refine ⟨p, ?_⟩
      rw [keyLoop, hfwd]
      show (cmpA ar m e).bind _ = _
      rw [hc, Option.some_bind, if_pos hcneg]
      show (widA ar s off).bind _ = _
      rw [hw, Option.some_bind, hp]
      unfold stopKey
      rw [List.takeWhile_cons, if_pos (by simp [hlt]), List.getLastD_cons]
    · have hcpos : ¬ c < 0 := fun hcn => hlt (hclt.mp hcn)
      refine ⟨pos, ?_⟩
      rw [keyLoop, hfwd]
      show (cmpA ar m e).bind _ = _
      rw [hc, Option.some_bind, if_neg hcpos]
      unfold stopKey
      rw [List.takeWhile_cons, if_neg (by simp [hlt])]
      rfl

/-! ### The topological invariant -/

/-- The ids of the stored nodes whose tower reaches level `i`, in level-0
order. -/
def lvlIds (ar : List Node) (i : Nat) (ids : List Nat) : List Nat :=
  ids.filter fun id => decide (i < hgt ar id)

/-- Well-formedness of a stored node: present in the arena, entry present,
forward/width arrays of equal positive length bounded by `lvl`. -/
def NodeOk (ar : List Node) (lvl id : Nat) : Prop :=
  ∃ n, ar[id]? = some n ∧ (∃ ent, n.entry = some ent) ∧
    n.forward.length = n.widths.length ∧ 1 ≤ n.forward.length ∧
    n.forward.length ≤ lvl

/-- The topological invariant of a reachable (by-key) skip list state,
with `ids` the level-0 chain of stored nodes: head sentinel shape, node
well-formedness, distinctness, tower containment (the chain at level `i`
is the height-filter of the level-0 chain), strictly ascending keys, and
count / level / scratch-buffer bookkeeping. -/
structure Inv (sl : SkipList) (ids : List Nat) : Prop where
  headLt : sl.head < sl.arena.length
  headOk : ∃ n, sl.arena[sl.head]? = some n ∧ n.entry = none ∧
    n.forward.length = sl.maxLevel ∧ n.widths.length = sl.maxLevel
  levelLt : sl.level + 1 ≤ sl.maxLevel
  nodesOk : ∀ id ∈ ids, NodeOk sl.arena sl.level id
  idsLt : ∀ id ∈ ids, id < sl.arena.length
  nodup : (sl.head :: ids).Nodup
  chains : ∀ i < sl.maxLevel, Links sl.arena i sl.head (lvlIds sl.arena i ids)
  sorted : ids.Pairwise (fun a b => keyD sl.arena a < keyD sl.arena b)
  numEq : sl.num = ids.length
  numLt : ids.length + 1 < U
  cacheLen : sl.cache.length = sl.maxLevel
  pcLen : sl.posCache.length = sl.maxLevel
  emptyTrail : sl.num = 0 → ∀ j, j < sl.level →
    sl.cache[j]? = some (some sl.head)

theorem hasEnt_of_nodeOk {ar : List Node} {lvl id : Nat} (h : NodeOk ar lvl id) :
    HasEnt ar id := by
  obtain ⟨n, hn, ⟨ent, hent⟩, -, -, -⟩ := h
  refine ⟨ent, ?_⟩
  unfold entA
  rw [hn]
  simp [hent]

theorem hgt_eq_of_nodeOk {ar : List Node} {id : Nat} {n : Node}
    (hn : ar[id]? = some n) : hgt ar id = n.forward.length := by
  unfold hgt
  rw [hn]
  rfl

theorem slotsAt_of_nodeOk {ar : List Node} {lvl id i : Nat} (h : NodeOk ar lvl id)
    (hi : i < hgt ar id) : SlotsAt ar id i := by
  obtain ⟨n, hn, -, hlen, -, -⟩ := h
  rw [hgt_eq_of_nodeOk hn] at hi
  constructor
  · refine ⟨n.forward.get ⟨i, hi⟩, ?_⟩
    unfold fwdA
    rw [hn, Option.some_bind]
    exact List.getElem?_eq_getElem hi
  · refine ⟨n.widths.get ⟨i, hlen ▸ hi⟩, ?_⟩
    unfold widA
    rw [hn, Option.some_bind]
    exact List.getElem?_eq_getElem (hlen ▸ hi)

theorem slotsAt_head {sl : SkipList} {ids : List Nat} (hI : Inv sl ids) {i : Nat}
    (hi : i < sl.maxLevel) : SlotsAt sl.arena sl.head i := by
  obtain ⟨n, hn, -, hf, hw⟩ := hI.headOk
  constructor
  · refine ⟨n.forward.get ⟨i, hf ▸ hi⟩, ?_⟩
    unfold fwdA
    rw [hn, Option.some_bind]
    exact List.getElem?_eq_getElem (hf ▸ hi)
  · refine ⟨n.widths.get ⟨i, hw ▸ hi⟩, ?_⟩
    unfold widA
    rw [hn, Option.some_bind]
    exact List.getElem?_eq_getElem (hw ▸ hi)

theorem mem_lvlIds_hgt {ar : List Node} {i : Nat} {ids : List Nat} {id : Nat}
    (h : id ∈ lvlIds ar i ids) : id ∈ ids ∧ i < hgt ar id := by
  unfold lvlIds at h
  rw [List.mem_filter] at h
  exact ⟨h.1, by simpa using h.2⟩

theorem mem_lvlIds_of {ar : List Node} {i : Nat} {ids : List Nat} {id : Nat}
    (h1 : id ∈ ids) (h2 : i < hgt ar id) : id ∈ lvlIds ar i ids := by
  unfold lvlIds
  rw [List.mem_filter]
  exact ⟨h1, by simpa⟩

theorem lvlIds_zero {ar : List Node} {ids : List Nat}
    (h : ∀ id ∈ ids, 0 < hgt ar id) : lvlIds ar 0 ids = ids := by
  unfold lvlIds
  apply List.filter_eq_self.mpr
  intro a ha
  simpa using h a ha

theorem lvlIds_empty {ar : List Node} {ids : List Nat} {i : Nat}
    (h : ∀ id ∈ ids, hgt ar id ≤ i) : lvlIds ar i ids = [] := by
  unfold lvlIds
  apply List.filter_eq_nil_iff.mpr
  intro a ha
  simpa using Nat.not_lt.mpr (h a ha)

theorem length_lvlIds_le {ar : List Node} {i : Nat} {ids : List Nat} :
    (lvlIds ar i ids).length ≤ ids.length :=
  List.length_filter_le _ _

/-- A strictly bounded Nodup list of naturals is shorter than the bound. -/
theorem nodup_length_lt {hd n : Nat} {ids : List Nat} (hnd : (hd :: ids).Nodup)
    (hlt : ∀ id ∈ ids, id < n) (hhd : hd < n) : ids.length < n := by
  have hsub : (hd :: ids).toFinset ⊆ Finset.range n := by
    intro a ha
    rw [List.mem_toFinset] at ha
    rw [Finset.mem_range]
    rcases ha with _ | h
    · exact hhd
    · exact hlt a (by assumption)
  have hcard := Finset.card_le_card hsub
  rw [List.toFinset_card_of_nodup hnd, Finset.card_range] at hcard
  simpa using hcard

/-- `getLastD` of a decomposition around a distinguished element. -/
theorem getLastD_append_cons {x d : Nat} : ∀ (A B : List Nat),
    (A ++ x :: B).getLastD d = B.getLastD x
  | [], B => List.getLastD_cons _ _ _
  | a :: A', B => by
    rw [List.cons_append, List.getLastD_cons]
    exact getLastD_append_cons A' B

/-- `takeWhile` over a decomposition whose prefix entirely satisfies the
predicate. -/
theorem takeWhile_append_all {p : Nat → Bool} : ∀ {A B : List Nat},
    (∀ a ∈ A, p a = true) → (A ++ B).takeWhile p = A ++ B.takeWhile p := by
  intro A
  induction A with
  | nil => intro B _; rfl
  | cons a A' ih =>
    intro B hall
    rw [List.cons_append, List.takeWhile_cons, if_pos (hall a (by simp)),
      ih fun x hx => hall x (by simp [hx])]
    rfl

/-- Following a chain from the last node of a prefix yields the suffix. -/
theorem Links_getLastD {ar : List Node} {i hd : Nat} : ∀ {A C : List Nat},
    Links ar i hd (A ++ C) → Links ar i (A.getLastD hd) C := by
  intro A
  induction A generalizing hd with
  | nil => intro C h; exact h
  | cons a A' ih =>
    intro C h
    rw [List.getLastD_cons]
    exact ih h.2

theorem Links_fwd_head {ar : List Node} {i s : Nat} {l : List Nat}
    (h : Links ar i s l) : fwdA ar s i = some l.head? := by
  cases l with
  | nil => exact h
  | cons m rest => exact h.1

/-! ### The by-key search trail on a sorted list -/

/-- The stop node of the by-key search at level `i`, measured from the
head over the full level-`i` chain. -/
def stopAt (ar : List Node) (e : Entry) (hd : Nat) (ids : List Nat) (i : Nat) : Nat :=
  stopKey ar e hd (lvlIds ar i ids)

theorem stopKey_cases (ar : List Node) (e : Entry) (hd : Nat) (l : List Nat) :
    stopKey ar e hd l = hd ∨
      (stopKey ar e hd l ∈ l ∧ keyD ar (stopKey ar e hd l) < e.1) := by
  unfold stopKey
  cases htw : l.takeWhile (fun m => decide (keyD ar m < e.1)) with
  | nil => left; rfl
  | cons x xs =>
    right
    have hmem : (x :: xs).getLastD hd ∈ x :: xs :=
      List.mem_of_mem_getLast? rfl
    have hmemtw : (x :: xs).getLastD hd ∈ l.takeWhile fun m => decide (keyD ar m < e.1) := by
      rw [htw]; exact hmem
    refine ⟨?_, ?_⟩
    · exact (List.takeWhile_sublist _).subset hmemtw
    · simpa using List.mem_takeWhile_imp hmemtw

theorem mem_lvlIds_succ_sub {ar : List Node} {i : Nat} {ids : List Nat} {id : Nat}
    (h : id ∈ lvlIds ar (i + 1) ids) : id ∈ lvlIds ar i ids := by
  obtain ⟨h1, h2⟩ := mem_lvlIds_hgt h
  exact mem_lvlIds_of h1 (by omega)

/-- On a sorted chain, walking level `i` from a node `s` below the target
(or from the head) reaches the same stop as walking the whole chain. -/
theorem stop_shift {ar : List Node} {i hd : Nat} {l : List Nat} {e : Entry} {s : Nat}
    (hL : Links ar i hd l)
    (hsort : l.Pairwise fun a b => keyD ar a < keyD ar b)
    (hs : s = hd ∨ (s ∈ l ∧ keyD ar s < e.1)) :
    ∃ l₂, Links ar i s l₂ ∧ stopKey ar e s l₂ = stopKey ar e hd l ∧
      l₂.length ≤ l.length ∧ ∀ m ∈ l₂, m ∈ l := by
  rcases hs with rfl | ⟨hmem, hkey⟩
  · exact ⟨l, hL, rfl, le_refl _, fun m hm => hm⟩
  · obtain ⟨A, C, rfl⟩ := List.mem_iff_append.mp hmem
    refine ⟨C, Links_suffix hL, ?_,
      by simp only [List.length_append, List.length_cons]; omega,
      fun m hm => by simp [hm]⟩
    unfold stopKey
    have hallA : ∀ a ∈ A ++ [s], (fun m => decide (keyD ar m < e.1)) a = true := by
      intro a ha
      rcases List.mem_append.mp ha with ha | ha
      · have hlt : keyD ar a < keyD ar s := by
          rw [List.pairwise_append] at hsort
          exact hsort.2.2 a ha s (by simp)
        simp only [decide_eq_true_eq]
        omega
      · have : a = s := by simpa using ha
        subst this
        simpa using hkey
    have h1 : A ++ s :: C = (A ++ [s]) ++ C := by simp
    rw [h1, takeWhile_append_all hallA]
    have h2 : (A ++ [s]) ++ C.takeWhile (fun m => decide (keyD ar m < e.1))
        = A ++ s :: C.takeWhile fun m => decide (keyD ar m < e.1) := by simp
    rw [h2, getLastD_append_cons]

/-- The full characterisation of the by-key level descent starting from
the stop node of the level above: it ends at the level-0 stop node and
records the per-level stop nodes in the update trail. -/
theorem keyLevels_run {sl : SkipList} {ids : List Nat} (hI : Inv sl ids) (e : Entry) :
    ∀ off : Nat, off ≤ sl.level →
    ∀ (pos : Nat) (cache : List (Option Nat)) (pc : List Nat),
      cache.length = sl.maxLevel → pc.length = sl.maxLevel →
      ∃ p c' pc',
        keyLevels sl.arena e (sl.arena.length + 1) true off
          (stopAt sl.arena e sl.head ids (off + 1)) pos cache pc
          = some (stopAt sl.arena e sl.head ids 0, p, c', pc') ∧
        c'.length = sl.maxLevel ∧ pc'.length = sl.maxLevel ∧
        (∀ j, j ≤ off → c'[j]? = some (some (stopAt sl.arena e sl.head ids j))) ∧
        (∀ j, off < j → c'[j]? = cache[j]?) ∧
        (∀ j, off < j → pc'[j]? = pc[j]?) := by
  have hidslt : ids.length < sl.arena.length :=
    nodup_length_lt hI.nodup hI.idsLt hI.headLt
  have hstep : ∀ off : Nat, off ≤ sl.level →
      ∀ pos : Nat, ∃ p,
        keyLoop sl.arena e off (sl.arena.length + 1)
          (stopAt sl.arena e sl.head ids (off + 1)) pos
          = some (stopAt sl.arena e sl.head ids off, p) := by
    intro off hoff pos
    have hoffmax : off < sl.maxLevel := by
      have := hI.levelLt
      omega
    have hcases := stopKey_cases sl.arena e sl.head (lvlIds sl.arena (off + 1) ids)
    have hs : stopAt sl.arena e sl.head ids (off + 1) = sl.head ∨
        (stopAt sl.arena e sl.head ids (off + 1) ∈ lvlIds sl.arena off ids ∧
          keyD sl.arena (stopAt sl.arena e sl.head ids (off + 1)) < e.1) := by
      unfold stopAt
      rcases hcases with h | ⟨h1, h2⟩
      · left; exact h
      · right; exact ⟨mem_lvlIds_succ_sub h1, h2⟩
    obtain ⟨l₂, hL₂, hstop, hlen₂, hmem₂⟩ := stop_shift
      (hI.chains off hoffmax) (hI.sorted.filter _) hs
    have hslots : SlotsAt sl.arena (stopAt sl.arena e sl.head ids (off + 1)) off := by
      rcases hs with h | ⟨h1, -⟩
      · rw [h]; exact slotsAt_head hI hoffmax
      · obtain ⟨hin, hh⟩ := mem_lvlIds_hgt h1
        exact slotsAt_of_nodeOk (hI.nodesOk _ hin) hh
    obtain ⟨p, hp⟩ := keyLoop_run sl.arena e off l₂ _ pos (sl.arena.length + 1) hL₂
      hslots
      (fun m hm => by
        obtain ⟨hin, hh⟩ := mem_lvlIds_hgt (hmem₂ m hm)
        exact ⟨slotsAt_of_nodeOk (hI.nodesOk _ hin) hh,
          hasEnt_of_nodeOk (hI.nodesOk _ hin)⟩)
      (by
        have h9 : (lvlIds sl.arena off ids).length ≤ ids.length := length_lvlIds_le
        omega)
    refine ⟨p, ?_⟩
    rw [hp, hstop]
    rfl
  intro off
  induction off with
  | zero =>
    intro _ pos cache pc hclen hpclen
    obtain ⟨p, hp⟩ := hstep 0 (Nat.zero_le _) pos
    refine ⟨p, cache.set 0 (some (stopAt sl.arena e sl.head ids 0)), pc.set 0 p,
      ?_, by simp [hclen], by simp [hpclen], ?_, ?_, ?_⟩
    · rw [keyLevels, hp]
      rfl
    · intro j hj
      interval_cases j
      rw [List.getElem?_set_eq (by rw [hclen]; have := hI.levelLt; omega)]
    · intro j hj
      rw [List.getElem?_set_ne (by omega)]
    · intro j hj
      rw [List.getElem?_set_ne (by omega)]
  | succ o ih =>
    intro hoff pos cache pc hclen hpclen
    obtain ⟨p', hp'⟩ := hstep (o + 1) hoff pos
    obtain ⟨p, c', pc', hrun, hc'len, hpc'len, hle, hgtc, hgtpc⟩ :=
      ih (by omega) p' (cache.set (o + 1) (some (stopAt sl.arena e sl.head ids (o + 1))))
        (pc.set (o + 1) p') (by simp [hclen]) (by simp [hpclen])
    refine ⟨p, c', pc', ?_, hc'len, hpc'len, ?_, ?_, ?_⟩
    · rw [keyLevels, hp']
      exact hrun
    · intro j hj
      rcases Nat.lt_or_ge j (o + 1) with hj' | hj'
      · exact hle j (by omega)
      · have hj2 : j = o + 1 := by omega
        subst hj2
        rw [hgtc (o + 1) (by omega),
          List.getElem?_set_eq (by rw [hclen]; have := hI.levelLt; omega)]
    · intro j hj
      rw [hgtc j (by omega), List.getElem?_set_ne (by omega)]
    · intro j hj
      rw [hgtpc j (by omega), List.getElem?_set_ne (by omega)]

theorem hgt_le_level {sl : SkipList} {ids : List Nat} (hI : Inv sl ids) :
    ∀ id ∈ ids, hgt sl.arena id ≤ sl.level := by
  intro id h
  obtain ⟨n, hn, -, -, -, hle⟩ := hI.nodesOk id h
  rw [hgt_eq_of_nodeOk hn]
  exact hle

theorem hgt_pos {sl : SkipList} {ids : List Nat} (hI : Inv sl ids) :
    ∀ id ∈ ids, 0 < hgt sl.arena id := by
  intro id h
  obtain ⟨n, hn, -, -, hpos, -⟩ := hI.nodesOk id h
  rw [hgt_eq_of_nodeOk hn]
  exact hpos

theorem stopAt_above {sl : SkipList} {ids : List Nat} (hI : Inv sl ids) (e : Entry)
    {i : Nat} (hi : sl.level ≤ i) : stopAt sl.arena e sl.head ids i = sl.head := by
  unfold stopAt
  rw [lvlIds_empty fun id h => le_trans (hgt_le_level hI id h) hi]
  rfl

/-- The first stored id with key at least the target's. -/
def firstGE (ar : List Node) (e : Entry) (ids : List Nat) : Option Nat :=
  (ids.dropWhile fun m => decide (keyD ar m < e.1)).head?

/-- Full characterisation of a by-key search with trail recording on a
state satisfying the invariant. -/
theorem search_run {sl : SkipList} {ids : List Nat} (hI : Inv sl ids) (e : Entry)
    (hnum : sl.num ≠ 0) :
    ∃ p c' pc',
      sl.search e true = some (firstGE sl.arena e ids, p, c', pc') ∧
      c'.length = sl.maxLevel ∧ pc'.length = sl.maxLevel ∧
      (∀ j, j ≤ sl.level → c'[j]? = some (some (stopAt sl.arena e sl.head ids j))) ∧
      (∀ j, sl.level < j → c'[j]? = sl.cache[j]?) ∧
      (∀ j, sl.level < j → pc'[j]? = sl.posCache[j]?) := by
  obtain ⟨p, c', pc', hrun, hc'len, hpc'len, hle, hgtc, hgtpc⟩ :=
    keyLevels_run hI e sl.level (le_refl _) 0 sl.cache sl.posCache
      hI.cacheLen hI.pcLen
  have hstart : stopAt sl.arena e sl.head ids (sl.level + 1) = sl.head :=
    stopAt_above hI e (by omega)
  have hfwd : fwdA sl.arena (stopAt sl.arena e sl.head ids 0) 0
      = some (firstGE sl.arena e ids) := by
    have hchain0 : Links sl.arena 0 sl.head ids := by
      have := hI.chains 0 (by have := hI.levelLt; omega)
      rwa [lvlIds_zero (hgt_pos hI)] at this
    have hsplit : ids = (ids.takeWhile fun m => decide (keyD sl.arena m < e.1))
        ++ ids.dropWhile fun m => decide (keyD sl.arena m < e.1) :=
      (List.takeWhile_append_dropWhile _ _).symm
    have hstop0 : stopAt sl.arena e sl.head ids 0
        = (ids.takeWhile fun m => decide (keyD sl.arena m < e.1)).getLastD sl.head := by
      unfold stopAt stopKey
      rw [lvlIds_zero (hgt_pos hI)]
    rw [hstop0]
    apply Links_fwd_head
    apply Links_getLastD
    rw [← hsplit]
    exact hchain0
  refine ⟨(p + 1) % U, c', pc', ?_, hc'len, hpc'len, hle, hgtc, hgtpc⟩
  unfold SkipList.search
  rw [if_neg hnum]
  rw [hstart] at hrun
  rw [hrun]
  show (fwdA sl.arena (stopAt sl.arena e sl.head ids 0) 0).bind _ = _
  rw [hfwd, Option.some_bind]

/-! ### Arena shape: presence, heights, width lengths -/

/-- Total read of a node's widths-array length. -/
def wlenA (ar : List Node) (id : Nat) : Nat :=
  ((ar[id]?).map (·.widths.length)).getD 0

theorem wlenA_eq {ar : List Node} {id : Nat} {n : Node}
    (hn : ar[id]? = some n) : wlenA ar id = n.widths.length := by
  unfold wlenA
  rw [hn]
  rfl

theorem getElem?_isSome_of_lt {ar : List Node} {id : Nat} (h : id < ar.length) :
    ∃ n, ar[id]? = some n := by
  rw [List.getElem?_eq_getElem h]
  exact ⟨_, rfl⟩

theorem fwdA_total {ar : List Node} {id i : Nat} (h : id < ar.length)
    (hi : i < hgt ar id) : ∃ f, fwdA ar id i = some f := by
  obtain ⟨n, hn⟩ := getElem?_isSome_of_lt h
  rw [hgt_eq_of_nodeOk hn] at hi
  refine ⟨n.forward.get ⟨i, hi⟩, ?_⟩
  unfold fwdA
  rw [hn, Option.some_bind]
  exact List.getElem?_eq_getElem hi

theorem widA_total {ar : List Node} {id i : Nat} (h : id < ar.length)
    (hi : i < wlenA ar id) : ∃ w, widA ar id i = some w := by
  obtain ⟨n, hn⟩ := getElem?_isSome_of_lt h
  rw [wlenA_eq hn] at hi
  refine ⟨n.widths.get ⟨i, hi⟩, ?_⟩
  unfold widA
  rw [hn, Option.some_bind]
  exact List.getElem?_eq_getElem hi

theorem setFwdA_total {ar : List Node} {id i : Nat} (v : Option Nat)
    (h : id < ar.length) (hi : i < hgt ar id) :
    ∃ ar', setFwdA ar id i v = some ar' := by
  obtain ⟨n, hn⟩ := getElem?_isSome_of_lt h
  rw [hgt_eq_of_nodeOk hn] at hi
  refine ⟨ar.set id { n with forward := n.forward.set i v }, ?_⟩
  unfold setFwdA
  rw [hn]
  dsimp only
  rw [if_pos hi]

theorem setWidA_total {ar : List Node} {id i : Nat} (v : Nat)
    (h : id < ar.length) (hi : i < wlenA ar id) :
    ∃ ar', setWidA ar id i v = some ar' := by
  obtain ⟨n, hn⟩ := getElem?_isSome_of_lt h
  rw [wlenA_eq hn] at hi
  refine ⟨ar.set id { n with widths := n.widths.set i v }, ?_⟩
  unfold setWidA
  rw [hn]
  dsimp only
  rw [if_pos hi]

theorem hgt_setFwdA {ar : List Node} {id i : Nat} {v : Option Nat} {ar' : List Node}
    (h : setFwdA ar id i v = some ar') (j : Nat) : hgt ar' j = hgt ar j := by
  obtain ⟨n, hn, -, rfl⟩ := setFwdA_inv h
  unfold hgt
  rcases eq_or_ne id j with rfl | hne
  · rw [getElem?_set_self hn, hn]
    simp
  · rw [List.getElem?_set_ne hne]

theorem hgt_setWidA {ar : List Node} {id i v : Nat} {ar' : List Node}
    (h : setWidA ar id i v = some ar') (j : Nat) : hgt ar' j = hgt ar j := by
  obtain ⟨n, hn, -, rfl⟩ := setWidA_inv h
  unfold hgt
  rcases eq_or_ne id j with rfl | hne
  · rw [getElem?_set_self hn, hn]
    rfl
  · rw [List.getElem?_set_ne hne]

theorem hgt_setEntA {ar : List Node} {id : Nat} {v : Option Entry} {ar' : List Node}
    (h : setEntA ar id v = some ar') (j : Nat) : hgt ar' j = hgt ar j := by
  obtain ⟨n, hn, rfl⟩ := setEntA_inv h
  unfold hgt
  rcases eq_or_ne id j with rfl | hne
  · rw [getElem?_set_self hn, hn]
    rfl
  · rw [List.getElem?_set_ne hne]

theorem wlenA_setFwdA {ar : List Node} {id i : Nat} {v : Option Nat} {ar' : List Node}
    (h : setFwdA ar id i v = some ar') (j : Nat) : wlenA ar' j = wlenA ar j := by
  obtain ⟨n, hn, -, rfl⟩ := setFwdA_inv h
  unfold wlenA
  rcases eq_or_ne id j with rfl | hne
  · rw [getElem?_set_self hn, hn]
    rfl
  · rw [List.getElem?_set_ne hne]

theorem wlenA_setWidA {ar : List Node} {id i v : Nat} {ar' : List Node}
    (h : setWidA ar id i v = some ar') (j : Nat) : wlenA ar' j = wlenA ar j := by
  obtain ⟨n, hn, -, rfl⟩ := setWidA_inv h
  unfold wlenA
  rcases eq_or_ne id j with rfl | hne
  · rw [getElem?_set_self hn, hn]
    simp
  · rw [List.getElem?_set_ne hne]

theorem wlenA_setEntA {ar : List Node} {id : Nat} {v : Option Entry} {ar' : List Node}
    (h : setEntA ar id v = some ar') (j : Nat) : wlenA ar' j = wlenA ar j := by
  obtain ⟨n, hn, rfl⟩ := setEntA_inv h
  unfold wlenA
  rcases eq_or_ne id j with rfl | hne
  · rw [getElem?_set_self hn, hn]
    rfl
  · rw [List.getElem?_set_ne hne]

theorem hgt_append {ar : List Node} {nn : Node} {j : Nat} (hj : j < ar.length) :
    hgt (ar ++ [nn]) j = hgt ar j := by
  unfold hgt
  rw [List.getElem?_append_left hj]

theorem wlenA_append {ar : List Node} {nn : Node} {j : Nat} (hj : j < ar.length) :
    wlenA (ar ++ [nn]) j = wlenA ar j := by
  unfold wlenA
  rw [List.getElem?_append_left hj]

theorem hgt_append_self {ar : List Node} {nn : Node} :
    hgt (ar ++ [nn]) ar.length = nn.forward.length := by
  unfold hgt
  rw [getElem?_append_self]
  rfl

theorem wlenA_append_self {ar : List Node} {nn : Node} :
    wlenA (ar ++ [nn]) ar.length = nn.widths.length := by
  unfold wlenA
  rw [getElem?_append_self]
  rfl

theorem keyD_eq_of_entA {ar ar' : List Node} {j : Nat}
    (h : entA ar' j = entA ar j) : keyD ar' j = keyD ar j := by
  unfold entA at h
  unfold keyD
  cases h1 : ar'[j]? with
  | none =>
    rw [h1] at h
    cases h2 : ar[j]? with
    | none => rfl
    | some m => rw [h2] at h; cases h
  | some n =>
    rw [h1] at h
    cases h2 : ar[j]? with
    | none => rw [h2] at h; cases h
    | some m =>
      rw [h2] at h
      simp only [Option.map, Option.some.injEq] at h
      simp [h]

/-! ### Effect of the insert splice loops -/

theorem raiseCache_spec (hd : Nat) : ∀ (k i : Nat) (cs : List (Option Nat)),
    (raiseCache hd cs i k).length = cs.length ∧
    (∀ j, i ≤ j → j < i + k → j < cs.length →
      (raiseCache hd cs i k)[j]? = some (some hd)) ∧
    (∀ j, j < i ∨ i + k ≤ j → (raiseCache hd cs i k)[j]? = cs[j]?)
  | 0, i, cs => by
    refine ⟨rfl, ?_, fun j _ => rfl⟩
    intro j h1 h2
    omega
  | k + 1, i, cs => by
    obtain ⟨hlen, hin, hout⟩ := raiseCache_spec hd k (i + 1) (cs.set i (some hd))
    rw [List.length_set] at hlen
    refine ⟨hlen, ?_, ?_⟩
    · intro j h1 h2 h3
      rcases eq_or_ne j i with rfl | hne
      · rw [show raiseCache hd cs j (k + 1) = raiseCache hd (cs.set j (some hd)) (j + 1) k
            from rfl]
        rw [hout j (Or.inl (by omega))]
        rw [List.getElem?_set_eq h3]
      · rw [show raiseCache hd cs i (k + 1) = raiseCache hd (cs.set i (some hd)) (i + 1) k
            from rfl]
        rw [hin j (by omega) (by omega) (by rw [List.length_set]; exact h3)]
    · intro j hj
      rw [show raiseCache hd cs i (k + 1) = raiseCache hd (cs.set i (some hd)) (i + 1) k
          from rfl]
      rw [hout j (by omega), List.getElem?_set_ne (by omega)]

theorem spliceOne_run {cache : List (Option Nat)} {pc : List Nat}
    {nnid pos i : Nat} {ar : List Node} {cid : Nat}
    (hcache : cache[i]? = some (some cid))
    (hpc : ∃ v, pc[i]? = some v)
    (hne : cid ≠ nnid)
    (hcid : cid < ar.length) (hcidh : i < hgt ar cid) (hcidw : i < wlenA ar cid)
    (hnn : nnid < ar.length) (hnnh : i < hgt ar nnid) (hnnw : i < wlenA ar nnid) :
    ∃ ar', spliceOne cache pc nnid pos i ar = some ar' ∧
      ar'.length = ar.length ∧
      (∀ id, entA ar' id = entA ar id) ∧
      (∀ id, hgt ar' id = hgt ar id) ∧
      (∀ id, wlenA ar' id = wlenA ar id) ∧
      fwdA ar' nnid i = fwdA ar cid i ∧
      fwdA ar' cid i = some (some nnid) ∧
      (∀ id j, (id ≠ nnid ∧ id ≠ cid) ∨ j ≠ i → fwdA ar' id j = fwdA ar id j) := by
  obtain ⟨pci, hpci⟩ := hpc
  obtain ⟨f, hf⟩ := fwdA_total hcid hcidh
  obtain ⟨ar1, har1⟩ := setFwdA_total f hnn hnnh
  have hlen1 := length_setFwdA har1
  obtain ⟨ar2, har2⟩ := setFwdA_total (some nnid) (show cid < ar1.length by omega)
    (show i < hgt ar1 cid by rw [hgt_setFwdA har1]; exact hcidh)
  have hlen2 := length_setFwdA har2
  obtain ⟨fw, hfw⟩ := widA_total (show cid < ar2.length by omega)
    (show i < wlenA ar2 cid by rw [wlenA_setFwdA har2, wlenA_setFwdA har1]; exact hcidw)
  have hnn2 : nnid < ar2.length := by omega
  have hnnw2 : i < wlenA ar2 nnid := by
    rw [wlenA_setFwdA har2, wlenA_setFwdA har1]; exact hnnw
  obtain ⟨ar3, har3⟩ : ∃ ar3,
      (if fw = 0 then setWidA ar2 nnid i 0
       else setWidA ar2 nnid i (usub (pci + fw + 1) pos)) = some ar3 := by
    by_cases hfw0 : fw = 0
    · rw [if_pos hfw0]; exact setWidA_total _ hnn2 hnnw2
    · rw [if_neg hfw0]; exact setWidA_total _ hnn2 hnnw2
  have har3' : ∃ v, setWidA ar2 nnid i v = some ar3 := by
    by_cases hfw0 : fw = 0
    · rw [if_pos hfw0] at har3; exact ⟨_, har3⟩
    · rw [if_neg hfw0] at har3; exact ⟨_, har3⟩
  obtain ⟨w3, hw3⟩ := har3'
  have hlen3 := length_setWidA hw3
  have hf2 : fwdA ar3 cid i = some (some nnid) := by
    rw [fwdA_setWidA hw3]
    exact fwdA_setFwdA_self har2
  obtain ⟨ar4, har4⟩ := setWidA_total (usub pos pci)
    (show cid < ar3.length by omega)
    (show i < wlenA ar3 cid by
      rw [wlenA_setWidA hw3, wlenA_setFwdA har2, wlenA_setFwdA har1]; exact hcidw)
  have hlen4 := length_setWidA har4
  refine ⟨ar4, ?_, by omega, ?_, ?_, ?_, ?_, ?_, ?_⟩
  · unfold spliceOne
    rw [hcache, bbind_some, bbind_some, hf, bbind_some,
      har1, bbind_some, har2, bbind_some, hfw, bbind_some,
      hpci, bbind_some]
    dsimp only
    by_cases hfw0 : fw = 0
    · rw [if_pos hfw0] at har3 ⊢
      rw [har3, bbind_some, hf2, bbind_some]
      exact har4
    · rw [if_neg hfw0] at har3 ⊢
      rw [har3, bbind_some, hf2, bbind_some]
      exact har4
  · intro id
    rw [entA_setWidA har4, entA_setWidA hw3, entA_setFwdA har2, entA_setFwdA har1]
  · intro id
    rw [hgt_setWidA har4, hgt_setWidA hw3, hgt_setFwdA har2, hgt_setFwdA har1]
  · intro id
    rw [wlenA_setWidA har4, wlenA_setWidA hw3, wlenA_setFwdA har2, wlenA_setFwdA har1]
  · rw [fwdA_setWidA har4, fwdA_setWidA hw3,
      fwdA_setFwdA_ne har2 nnid i (Or.inl (Ne.symm hne)), fwdA_setFwdA_self har1, hf]
  · rw [fwdA_setWidA har4, fwdA_setWidA hw3]
    exact fwdA_setFwdA_self har2
  · intro id j hid
    have h1 : id ≠ cid ∨ j ≠ i := by tauto
    have h2 : id ≠ nnid ∨ j ≠ i := by tauto
    rw [fwdA_setWidA har4, fwdA_setWidA hw3, fwdA_setFwdA_ne har2 id j h1,
      fwdA_setFwdA_ne har1 id j h2]

theorem spliceLevels_run {cache : List (Option Nat)} {pc : List Nat}
    {nnid pos : Nat} (T : Nat → Nat) :
    ∀ (k i : Nat) (ar : List Node),
      (∀ j, i ≤ j → j < i + k →
        cache[j]? = some (some (T j)) ∧ (∃ v, pc[j]? = some v) ∧ T j ≠ nnid ∧
        T j < ar.length ∧ j < hgt ar (T j) ∧ j < wlenA ar (T j) ∧
        j < hgt ar nnid ∧ j < wlenA ar nnid) →
      nnid < ar.length →
      ∃ ar', spliceLevels cache pc nnid pos i k ar = some ar' ∧
        ar'.length = ar.length ∧
        (∀ id, entA ar' id = entA ar id) ∧
        (∀ id, hgt ar' id = hgt ar id) ∧
        (∀ id, wlenA ar' id = wlenA ar id) ∧
        (∀ j, i ≤ j → j < i + k →
          fwdA ar' nnid j = fwdA ar (T j) j ∧
          fwdA ar' (T j) j = some (some nnid) ∧
          ∀ id, id ≠ nnid → id ≠ T j → fwdA ar' id j = fwdA ar id j) ∧
        (∀ id j, j < i ∨ i + k ≤ j → fwdA ar' id j = fwdA ar id j)
  | 0, i, ar => by
    intro _ _
    exact ⟨ar, rfl, rfl, fun _ => rfl, fun _ => rfl, fun _ => rfl,
      fun j h1 h2 => absurd h2 (by omega), fun id j _ => rfl⟩
  | k + 1, i, ar => by
    intro hcond hnn
    obtain ⟨hc, hpcv, hneq, hlt, hh, hw, hnh, hnw⟩ := hcond i (le_refl _) (by omega)
    obtain ⟨ar1, heq1, hlen1, hent1, hhgt1, hwlen1, hfnn1, hfc1, hfr1⟩ :=
      spliceOne_run hc hpcv hneq hlt hh hw hnn hnh hnw
    obtain ⟨ar', heq2, hlen2, hent2, hhgt2, hwlen2, hin2, hout2⟩ :=
      spliceLevels_run T k (i + 1) ar1
        (fun j h1 h2 => by
          obtain ⟨c1, c2, c3, c4, c5, c6, c7, c8⟩ := hcond j (by omega) (by omega)
          exact ⟨c1, c2, c3, by omega, by rw [hhgt1]; exact c5,
            by rw [hwlen1]; exact c6, by rw [hhgt1]; exact c7,
            by rw [hwlen1]; exact c8⟩)
        (by omega)
    refine ⟨ar', ?_, by omega, fun id => by rw [hent2, hent1],
      fun id => by rw [hhgt2, hhgt1], fun id => by rw [hwlen2, hwlen1], ?_, ?_⟩
    · rw [spliceLevels, heq1, bbind_some]
      exact heq2
    · intro j h1 h2
      rcases eq_or_ne j i with rfl | hne
      · refine ⟨?_, ?_, ?_⟩
        · rw [hout2 nnid j (Or.inl (by omega))]
          exact hfnn1
        · rw [hout2 (T j) j (Or.inl (by omega))]
          exact hfc1
        · intro id hid1 hid2
          rw [hout2 id j (Or.inl (by omega)), hfr1 id j (Or.inl ⟨hid1, hid2⟩)]
      · obtain ⟨d1, d2, d3⟩ := hin2 j (by omega) (by omega)
        obtain ⟨-, -, c3, c4, -, -, -, -⟩ := hcond j (by omega) (by omega)
        refine ⟨?_, d2, ?_⟩
        · rw [d1, hfr1 (T j) j (Or.inr hne)]
        · intro id hid1 hid2
          rw [d3 id hid1 hid2, hfr1 id j (Or.inr hne)]
    · intro id j hj
      rw [hout2 id j (by omega), hfr1 id j (Or.inr (by omega))]

theorem bumpOne_run {cache : List (Option Nat)} {i : Nat} {ar : List Node}
    {cid : Nat}
    (hcache : cache[i]? = some (some cid))
    (hcid : cid < ar.length) (hcidh : i < hgt ar cid) (hcidw : i < wlenA ar cid) :
    ∃ ar', bumpOne cache i ar = some ar' ∧
      ar'.length = ar.length ∧
      (∀ id, entA ar' id = entA ar id) ∧
      (∀ id, hgt ar' id = hgt ar id) ∧
      (∀ id, wlenA ar' id = wlenA ar id) ∧
      (∀ id j, fwdA ar' id j = fwdA ar id j) := by
  obtain ⟨f, hf⟩ := fwdA_total hcid hcidh
  cases f with
  | none =>
    refine ⟨ar, ?_, rfl, fun _ => rfl, fun _ => rfl, fun _ => rfl, fun _ _ => rfl⟩
    unfold bumpOne
    rw [hcache, bbind_some, bbind_some, hf, bbind_some]
  | some m =>
    obtain ⟨w, hw⟩ := widA_total hcid hcidw
    obtain ⟨ar', har'⟩ := setWidA_total ((w + 1) % U) hcid hcidw
    refine ⟨ar', ?_, length_setWidA har', fun id => entA_setWidA har' id,
      fun id => hgt_setWidA har' id, fun id => wlenA_setWidA har' id,
      fun id j => fwdA_setWidA har' id j⟩
    unfold bumpOne
    rw [hcache, bbind_some, bbind_some, hf, bbind_some]
    dsimp only
    rw [hw, bbind_some]
    exact har'

theorem bumpLevels_run {cache : List (Option Nat)} (T : Nat → Nat) :
    ∀ (k i : Nat) (ar : List Node),
      (∀ j, i ≤ j → j < i + k →
        cache[j]? = some (some (T j)) ∧
        T j < ar.length ∧ j < hgt ar (T j) ∧ j < wlenA ar (T j)) →
      ∃ ar', bumpLevels cache i k ar = some ar' ∧
        ar'.length = ar.length ∧
        (∀ id, entA ar' id = entA ar id) ∧
        (∀ id, hgt ar' id = hgt ar id) ∧
        (∀ id, wlenA ar' id = wlenA ar id) ∧
        (∀ id j, fwdA ar' id j = fwdA ar id j)
  | 0, i, ar => fun _ =>
    ⟨ar, rfl, rfl, fun _ => rfl, fun _ => rfl, fun _ => rfl, fun _ _ => rfl⟩
  | k + 1, i, ar => by
    intro hcond
    obtain ⟨hc, hlt, hh, hw⟩ := hcond i (le_refl _) (by omega)
    obtain ⟨ar1, heq1, hlen1, hent1, hhgt1, hwlen1, hf1⟩ := bumpOne_run hc hlt hh hw
    obtain ⟨ar', heq2, hlen2, hent2, hhgt2, hwlen2, hf2⟩ :=
      bumpLevels_run T k (i + 1) ar1
        (fun j h1 h2 => by
          obtain ⟨c1, c2, c3, c4⟩ := hcond j (by omega) (by omega)
          exact ⟨c1, by omega, by rw [hhgt1]; exact c3, by rw [hwlen1]; exact c4⟩)
    refine ⟨ar', ?_, by omega, fun id => by rw [hent2, hent1],
      fun id => by rw [hhgt2, hhgt1], fun id => by rw [hwlen2, hwlen1],
      fun id j => by rw [hf2, hf1]⟩
    rw [bumpLevels, heq1, bbind_some]
    exact heq2

/-! ### Chain gluing and sorted-list filters -/

theorem getLastD_mem {l : List Nat} (a : Nat) : l.getLastD a ∈ a :: l := by
  have h1 : (a :: l).getLastD 0 = l.getLastD a := List.getLastD_cons 0 a l
  rw [← h1]
  exact List.mem_of_mem_getLast? rfl

/-- Replace the suffix of a chain after its prefix's last node, when the
rest of the prefix links are untouched. -/
theorem Links_glue {ar ar' : List Node} {i : Nat} :
    ∀ {A : List Nat} {hd : Nat} {C C' : List Nat},
      Links ar i hd (A ++ C) →
      (hd :: A).Nodup →
      (∀ id ∈ hd :: A, id ≠ A.getLastD hd → fwdA ar' id i = fwdA ar id i) →
      Links ar' i (A.getLastD hd) C' →
      Links ar' i hd (A ++ C') := by
  intro A
  induction A with
  | nil =>
    intro hd C C' _ _ _ h4
    exact h4
  | cons a A' ih =>
    intro hd C C' h1 h2 h3 h4
    refine ⟨?_, ?_⟩
    · have hne : hd ≠ (a :: A').getLastD hd := by
        rw [List.getLastD_cons]
        intro heq
        have hm : A'.getLastD a ∈ a :: A' := getLastD_mem a
        rw [← heq] at hm
        exact (List.nodup_cons.mp h2).1 hm
      rw [h3 hd (by simp) hne]
      exact h1.1
    · rw [List.getLastD_cons] at h4
      refine ih h1.2 (List.nodup_cons.mp h2).2 (fun id hid hne2 => ?_) h4
      refine h3 id (by simp at hid ⊢; tauto) ?_
      rw [List.getLastD_cons]
      exact hne2

/-- On a list sorted by key, scanning below a bound is the same as
filtering below it. -/
theorem takeWhile_eq_filter_sorted {K : Nat → Nat} {b : Nat} :
    ∀ {l : List Nat}, l.Pairwise (fun x y => K x < K y) →
      l.takeWhile (fun m => decide (K m < b)) = l.filter fun m => decide (K m < b) := by
  intro l
  induction l with
  | nil => intro _; rfl
  | cons a l' ih =>
    intro hs
    by_cases ha : K a < b
    · rw [List.takeWhile_cons, if_pos (by simpa), List.filter_cons, if_pos (by simpa),
        ih (List.Pairwise.of_cons hs)]
    · rw [List.takeWhile_cons, if_neg (by simp; omega), List.filter_cons,
        if_neg (by simp; omega)]
      symm
      apply List.filter_eq_nil_iff.mpr
      intro x hx
      have hlt : K a < K x := (List.pairwise_cons.mp hs).1 x hx
      simp only [decide_eq_true_eq]
      omega

theorem filter_comm_list (p q : Nat → Bool) (l : List Nat) :
    (l.filter p).filter q = (l.filter q).filter p := by
  rw [List.filter_filter, List.filter_filter]
  apply List.filter_congr
  intro a _
  rw [Bool.and_comm]

theorem lvlIds_congr {ar ar' : List Node} {i : Nat} {ids : List Nat}
    (h : ∀ id ∈ ids, hgt ar' id = hgt ar id) :
    lvlIds ar' i ids = lvlIds ar i ids := by
  unfold lvlIds
  apply List.filter_congr
  intro a ha
  rw [h a ha]

theorem head?_dropWhile_mem_false {l : List Nat} {p : Nat → Bool} {a : Nat}
    (h : (l.dropWhile p).head? = some a) : a ∈ l ∧ p a = false := by
  constructor
  · exact (List.dropWhile_sublist p).subset (List.mem_of_mem_head? h)
  · have := List.head?_dropWhile_not p l
    rw [h] at this
    exact this

/-! ### Rebuilding the invariant pieces from shape facts -/

theorem nodeOk_build {ar : List Node} {lvl id : Nat} (h1 : id < ar.length)
    (h2 : ∃ ent, entA ar id = some (some ent)) (h3 : wlenA ar id = hgt ar id)
    (h4 : 1 ≤ hgt ar id) (h5 : hgt ar id ≤ lvl) : NodeOk ar lvl id := by
  obtain ⟨n, hn⟩ := getElem?_isSome_of_lt h1
  obtain ⟨ent, hent⟩ := h2
  rw [hgt_eq_of_nodeOk hn] at h4 h5
  rw [wlenA_eq hn, hgt_eq_of_nodeOk hn] at h3
  refine ⟨n, hn, ⟨ent, ?_⟩, h3.symm, h4, h5⟩
  unfold entA at hent
  rw [hn] at hent
  simpa using hent

theorem nodeOk_shape {ar : List Node} {lvl id : Nat} (h : NodeOk ar lvl id) :
    id < ar.length ∧ (∃ ent, entA ar id = some (some ent)) ∧
    wlenA ar id = hgt ar id ∧ 1 ≤ hgt ar id ∧ hgt ar id ≤ lvl := by
  obtain ⟨n, hn, ⟨ent, hent⟩, hlen, hpos, hle⟩ := h
  have hlt : id < ar.length := by
    by_contra hge
    rw [List.getElem?_eq_none (Nat.le_of_not_lt hge)] at hn
    cases hn
  refine ⟨hlt, ⟨ent, ?_⟩, ?_, ?_, ?_⟩
  · unfold entA
    rw [hn]
    simp [hent]
  · rw [wlenA_eq hn, hgt_eq_of_nodeOk hn]
    exact hlen.symm
  · rw [hgt_eq_of_nodeOk hn]; exact hpos
  · rw [hgt_eq_of_nodeOk hn]; exact hle

theorem headOk_build {ar : List Node} {hd mx : Nat} (h1 : hd < ar.length)
    (h2 : entA ar hd = some none) (h3 : hgt ar hd = mx) (h4 : wlenA ar hd = mx) :
    ∃ n, ar[hd]? = some n ∧ n.entry = none ∧
      n.forward.length = mx ∧ n.widths.length = mx := by
  obtain ⟨n, hn⟩ := getElem?_isSome_of_lt h1
  refine ⟨n, hn, ?_, ?_, ?_⟩
  · unfold entA at h2
    rw [hn] at h2
    simpa using h2
  · rw [← h3, hgt_eq_of_nodeOk hn]
  · rw [← h4, wlenA_eq hn]

theorem headOk_facts {sl : SkipList} {ids : List Nat} (hI : Inv sl ids) :
    entA sl.arena sl.head = some none ∧ hgt sl.arena sl.head = sl.maxLevel ∧
    wlenA sl.arena sl.head = sl.maxLevel := by
  obtain ⟨n, hn, hent, hf, hw⟩ := hI.headOk
  refine ⟨?_, ?_, ?_⟩
  · unfold entA
    rw [hn]
    simp [hent]
  · rw [hgt_eq_of_nodeOk hn]; exact hf
  · rw [wlenA_eq hn]; exact hw

theorem entA_append_self {ar : List Node} {nn : Node} :
    entA (ar ++ [nn]) ar.length = some nn.entry := by
  unfold entA
  rw [getElem?_append_self]
  rfl

/-- The id of the stop node of the search at level `i`, as the last node
of the level-`i` restriction of the below-target prefix. -/
theorem stopAt_eq_getLastD {sl : SkipList} {ids : List Nat} (hI : Inv sl ids)
    (e : Entry) (i : Nat) :
    stopAt sl.arena e sl.head ids i =
      (lvlIds sl.arena i
        (ids.takeWhile fun m => decide (keyD sl.arena m < e.1))).getLastD sl.head := by
  unfold stopAt stopKey lvlIds
  rw [takeWhile_eq_filter_sorted (hI.sorted.filter _),
    takeWhile_eq_filter_sorted hI.sorted, filter_comm_list]

theorem lvlIds_append {ar : List Node} {i : Nat} (l₁ l₂ : List Nat) :
    lvlIds ar i (l₁ ++ l₂) = lvlIds ar i l₁ ++ lvlIds ar i l₂ :=
  List.filter_append _ _

theorem lvlIds_sublist {ar : List Node} {i : Nat} {l₁ l₂ : List Nat}
    (h : List.Sublist l₁ l₂) : List.Sublist (lvlIds ar i l₁) (lvlIds ar i l₂) :=
  List.Sublist.filter _ h

theorem stopAt_cases (ar : List Node) (e : Entry) (hd : Nat) (ids : List Nat)
    (j : Nat) :
    stopAt ar e hd ids j = hd ∨
      (stopAt ar e hd ids j ∈ lvlIds ar j ids ∧
        keyD ar (stopAt ar e hd ids j) < e.1) :=
  stopKey_cases ar e hd (lvlIds ar j ids)

theorem getElem?_total {α : Type} {l : List α} {j : Nat} (hj : j < l.length) :
    ∃ v, l[j]? = some v :=
  ⟨_, List.getElem?_eq_getElem hj⟩

theorem keyD_of_entA {ar : List Node} {id : Nat} {ent : Entry}
    (h : entA ar id = some (some ent)) : keyD ar id = ent.1 := by
  unfold entA at h
  cases hn : ar[id]? with
  | none => rw [hn] at h; cases h
  | some n =>
    rw [hn] at h
    have hent : n.entry = some ent := by simpa using h
    unfold keyD
    rw [hn]
    simp [hent]

theorem nodup_cross {hd : Nat} {A B : List Nat} (h : (hd :: (A ++ B)).Nodup)
    {x y : Nat} (hx : x ∈ hd :: A) (hy : y ∈ B) : x ≠ y := by
  intro heq
  subst heq
  rcases List.mem_cons.mp hx with rfl | hx
  · exact (List.nodup_cons.mp h).1 (List.mem_append.mpr (Or.inr hy))
  · exact List.disjoint_of_nodup_append (List.nodup_cons.mp h).2 hx hy

/-! ### Insert preserves the invariant -/

theorem insertFresh_run {sl : SkipList} {ids : List Nat} (hI : Inv sl ids) (e : Entry)
    {h : Nat} (hh1 : 1 ≤ h) (hh2 : h ≤ sl.maxLevel - 1)
    (hroom : ids.length + 2 < U)
    (hfresh : ∀ nid,
      (ids.dropWhile fun m => decide (keyD sl.arena m < e.1)).head? = some nid →
      keyD sl.arena nid ≠ e.1)
    (pos : Nat) {c' : List (Option Nat)} {pc' : List Nat}
    (hc'len : c'.length = sl.maxLevel) (hpc'len : pc'.length = sl.maxLevel)
    (hc'in : ∀ j, j < sl.level →
      c'[j]? = some (some (stopAt sl.arena e sl.head ids j))) :
    ∃ sl',
      insertFresh sl e pos c' pc' h = some (none, sl') ∧
      Inv sl' (ids.takeWhile (fun m => decide (keyD sl.arena m < e.1)) ++
        sl.arena.length :: ids.dropWhile fun m => decide (keyD sl.arena m < e.1)) ∧
      sl'.num = sl.num + 1 ∧ sl'.maxLevel = sl.maxLevel ∧ sl'.head = sl.head ∧
      sl'.level = (if h > sl.level then h else sl.level) ∧
      entA sl'.arena sl.arena.length = some (some e) ∧
      (∀ id ∈ ids, entA sl'.arena id = entA sl.arena id) := by
  have hmx : 2 ≤ sl.maxLevel := by omega
  have hhd := hI.headLt
  obtain ⟨hhdent, hhdhgt, hhdwlen⟩ := headOk_facts hI
  have hTlt : ∀ j, j < sl.maxLevel →
      stopAt sl.arena e sl.head ids j < sl.arena.length ∧
      j < hgt sl.arena (stopAt sl.arena e sl.head ids j) ∧
      j < wlenA sl.arena (stopAt sl.arena e sl.head ids j) := by
    intro j hj
    rcases stopAt_cases sl.arena e sl.head ids j with hc | ⟨hc1, -⟩
    · rw [hc]
      exact ⟨hhd, by rw [hhdhgt]; exact hj, by rw [hhdwlen]; exact hj⟩
    · obtain ⟨hin, hg⟩ := mem_lvlIds_hgt hc1
      obtain ⟨hlt, -, hwh, -, -⟩ := nodeOk_shape (hI.nodesOk _ hin)
      exact ⟨hlt, hg, by rw [hwh]; exact hg⟩
  have hT : ∀ j, j < sl.level ∨ j < h →
      (if h > sl.level then raiseCache sl.head c' sl.level (h - sl.level) else c')[j]?
        = some (some (stopAt sl.arena e sl.head ids j)) := by
    intro j hj
    by_cases hcase : h > sl.level
    · rw [if_pos hcase]
      obtain ⟨hrlen, hrin, hrout⟩ := raiseCache_spec sl.head (h - sl.level) sl.level c'
      rcases Nat.lt_or_ge j sl.level with hjl | hjl
      · rw [hrout j (Or.inl hjl)]
        exact hc'in j hjl
      · have hjh : j < h := by
          rcases hj with hj | hj
          · omega
          · exact hj
        rw [hrin j hjl (by omega) (by rw [hc'len]; omega),
          stopAt_above hI e hjl]
    · rw [if_neg hcase]
      exact hc'in j (by omega)
  -- splice the new node through levels 0..h-1
  have hlen0 : (sl.arena ++ [newNode (some e) h]).length = sl.arena.length + 1 := by
    simp
  have hgt0new : hgt (sl.arena ++ [newNode (some e) h]) sl.arena.length = h := by
    rw [hgt_append_self]
    simp [newNode]
  have hwlen0new : wlenA (sl.arena ++ [newNode (some e) h]) sl.arena.length = h := by
    rw [wlenA_append_self]
    simp [newNode]
  obtain ⟨ar1, hsp, hsplen, hspent, hsphgt, hspwlen, hspin, hspout⟩ :=
    @spliceLevels_run
      (if h > sl.level then raiseCache sl.head c' sl.level (h - sl.level) else c')
      pc' sl.arena.length pos (stopAt sl.arena e sl.head ids) h 0
      (sl.arena ++ [newNode (some e) h])
      (by
        intro j h0 hjh
        have hjh' : j < h := by omega
        have hjmx : j < sl.maxLevel := by omega
        obtain ⟨t1, t2, t3⟩ := hTlt j hjmx
        refine ⟨hT j (Or.inr hjh'), getElem?_total (by rw [hpc'len]; omega),
          by omega, by omega, ?_, ?_, ?_, ?_⟩
        · rw [hgt_append t1]; exact t2
        · rw [wlenA_append t1]; exact t3
        · rw [hgt0new]; exact hjh'
        · rw [hwlen0new]; exact hjh')
      (by omega)
  -- widen the pointers that jump over the new node
  obtain ⟨ar2, hbp, hbplen, hbpent, hbphgt, hbpwlen, hbpfwd⟩ :=
    @bumpLevels_run
      (if h > sl.level then raiseCache sl.head c' sl.level (h - sl.level) else c')
      (stopAt sl.arena e sl.head ids)
      ((if h > sl.level then h else sl.level) - h) h ar1
      (by
        intro j hjh hjtop
        have hnr : ¬ h > sl.level := by
          by_contra hcon
          rw [if_pos hcon] at hjtop
          omega
        rw [if_neg hnr] at hjtop
        have hjlev : j < sl.level := by omega
        have hjmx : j < sl.maxLevel := by have := hI.levelLt; omega
        obtain ⟨t1, t2, t3⟩ := hTlt j hjmx
        refine ⟨hT j (Or.inl (by omega)), by omega, ?_, ?_⟩
        · rw [hsphgt, hgt_append t1]; exact t2
        · rw [hspwlen, wlenA_append t1]; exact t3)
  -- shorthand facts about the final arena
  have hlen2 : ar2.length = sl.arena.length + 1 := by rw [hbplen, hsplen, hlen0]
  have hent2 : ∀ id, id < sl.arena.length → entA ar2 id = entA sl.arena id := by
    intro id hid
    rw [hbpent, hspent, entA_append hid]
  have hent2new : entA ar2 sl.arena.length = some (some e) := by
    rw [hbpent, hspent, entA_append_self]
    rfl
  have hhgt2 : ∀ id, id < sl.arena.length → hgt ar2 id = hgt sl.arena id := by
    intro id hid
    rw [hbphgt, hsphgt, hgt_append hid]
  have hwlen2 : ∀ id, id < sl.arena.length → wlenA ar2 id = wlenA sl.arena id := by
    intro id hid
    rw [hbpwlen, hspwlen, wlenA_append hid]
  have hhgt2new : hgt ar2 sl.arena.length = h := by
    rw [hbphgt, hsphgt, hgt0new]
  have hwlen2new : wlenA ar2 sl.arena.length = h := by
    rw [hbpwlen, hspwlen, hwlen0new]
  have hkey2 : ∀ id, id < sl.arena.length → keyD ar2 id = keyD sl.arena id :=
    fun id hid => keyD_eq_of_entA (hent2 id hid)
  have hkey2new : keyD ar2 sl.arena.length = e.1 := keyD_of_entA hent2new
  have hsplit : ids = (ids.takeWhile fun m => decide (keyD sl.arena m < e.1)) ++
      ids.dropWhile fun m => decide (keyD sl.arena m < e.1) :=
    (List.takeWhile_append_dropWhile _ _).symm
  have htwsub : List.Sublist (ids.takeWhile fun m => decide (keyD sl.arena m < e.1)) ids :=
    List.takeWhile_sublist _
  have hdwsub : List.Sublist (ids.dropWhile fun m => decide (keyD sl.arena m < e.1)) ids :=
    List.dropWhile_sublist _
  have htwkey : ∀ x ∈ ids.takeWhile fun m => decide (keyD sl.arena m < e.1),
      keyD sl.arena x < e.1 := by
    intro x hx
    simpa using List.mem_takeWhile_imp hx
  have hdwkey : ∀ x ∈ ids.dropWhile fun m => decide (keyD sl.arena m < e.1),
      e.1 < keyD sl.arena x := by
    rcases hdweq : ids.dropWhile fun m => decide (keyD sl.arena m < e.1) with _ | ⟨b, dw'⟩
    · intro x hx
      cases hx
    · have hhead : (ids.dropWhile fun m => decide (keyD sl.arena m < e.1)).head?
          = some b := by rw [hdweq]; rfl
      obtain ⟨hbmem, hbfalse⟩ := head?_dropWhile_mem_false hhead
      have hbkey : e.1 < keyD sl.arena b := by
        have h1 := hfresh b hhead
        have h2 : ¬ keyD sl.arena b < e.1 := by simpa using hbfalse
        omega
      have hdwsorted : (b :: dw').Pairwise
          fun a b => keyD sl.arena a < keyD sl.arena b := by
        rw [← hdweq]
        exact hI.sorted.sublist hdwsub
      intro x hx
      rcases hx with _ | hx
      · exact hbkey
      · have := (List.pairwise_cons.mp hdwsorted).1 x (by assumption)
        omega
  have hnnidnotin : sl.arena.length ∉ ids := fun hmem =>
    absurd (hI.idsLt _ hmem) (by omega)
  have hInv : Inv
      { sl with
        num := (sl.num + 1) % U,
        level := if h > sl.level then h else sl.level,
        arena := ar2,
        cache := if h > sl.level then raiseCache sl.head c' sl.level (h - sl.level)
                 else c',
        posCache := pc' }
      (ids.takeWhile (fun m => decide (keyD sl.arena m < e.1)) ++
        sl.arena.length :: ids.dropWhile fun m => decide (keyD sl.arena m < e.1)) := by
    have hlevel' : (if h > sl.level then h else sl.level) + 1 ≤ sl.maxLevel := by
      have := hI.levelLt
      split <;> omega
    have hlevge : sl.level ≤ (if h > sl.level then h else sl.level) := by
      split <;> omega
    have hhle : h ≤ (if h > sl.level then h else sl.level) := by
      split <;> omega
    refine Inv.mk ?_ ?_ hlevel' ?_ ?_ ?_ ?_ ?_ ?_ ?_ ?_ ?_ ?_
    · show sl.head < ar2.length
      omega
    · exact headOk_build (by show sl.head < ar2.length; omega)
        (by rw [hent2 sl.head hhd]; exact hhdent)
        (by rw [hhgt2 sl.head hhd]; exact hhdhgt)
        (by rw [hwlen2 sl.head hhd]; exact hhdwlen)
    · -- nodesOk
      intro id hid
      rcases List.mem_append.mp hid with hid | hid
      · obtain ⟨hlt, ⟨ent, hent⟩, hwh, hpos1, hle⟩ :=
          nodeOk_shape (hI.nodesOk id (htwsub.subset hid))
        exact nodeOk_build (show id < ar2.length by omega)
          ⟨ent, by rw [hent2 id hlt]; exact hent⟩
          (by rw [hwlen2 id hlt, hhgt2 id hlt]; exact hwh)
          (by rw [hhgt2 id hlt]; exact hpos1)
          (by rw [hhgt2 id hlt]; exact le_trans hle hlevge)
      · rcases hid with _ | hid
        · exact nodeOk_build (show sl.arena.length < ar2.length by omega) ⟨e, hent2new⟩
            (by rw [hwlen2new, hhgt2new])
            (by rw [hhgt2new]; exact hh1)
            (by rw [hhgt2new]; exact hhle)
        · obtain ⟨hlt, ⟨ent, hent⟩, hwh, hpos1, hle⟩ :=
            nodeOk_shape (hI.nodesOk id (hdwsub.subset (by assumption)))
          exact nodeOk_build (show id < ar2.length by omega)
            ⟨ent, by rw [hent2 id hlt]; exact hent⟩
            (by rw [hwlen2 id hlt, hhgt2 id hlt]; exact hwh)
            (by rw [hhgt2 id hlt]; exact hpos1)
            (by rw [hhgt2 id hlt]; exact le_trans hle hlevge)
    · -- idsLt
      intro id hid
      show id < ar2.length
      rcases List.mem_append.mp hid with hid | hid
      · have := hI.idsLt id (htwsub.subset hid)
        omega
      · rcases hid with _ | hid
        · omega
        · have := hI.idsLt id (hdwsub.subset (by assumption))
          omega
    · -- nodup
      show (sl.head :: ((ids.takeWhile fun m => decide (keyD sl.arena m < e.1)) ++
        sl.arena.length :: ids.dropWhile fun m => decide (keyD sl.arena m < e.1))).Nodup
      have hmid : ((sl.head :: ids.takeWhile fun m => decide (keyD sl.arena m < e.1)) ++
          sl.arena.length :: ids.dropWhile fun m => decide (keyD sl.arena m < e.1)).Nodup := by
        apply List.nodup_middle.mpr
        refine List.nodup_cons.mpr ⟨?_, ?_⟩
        · intro hmem
          rcases List.mem_append.mp hmem with hmem | hmem
          · rcases List.mem_cons.mp hmem with heq | hmem
            · omega
            · exact hnnidnotin (htwsub.subset hmem)
          · exact hnnidnotin (hdwsub.subset hmem)
        · rw [show (sl.head :: ids.takeWhile fun m => decide (keyD sl.arena m < e.1)) ++
              (ids.dropWhile fun m => decide (keyD sl.arena m < e.1))
              = sl.head :: ids from by rw [List.cons_append, ← hsplit]]
          exact hI.nodup
      simpa using hmid
    · -- chains
      intro i hi
      have hfloor : lvlIds ar2 i
          ((ids.takeWhile fun m => decide (keyD sl.arena m < e.1)) ++
            sl.arena.length :: ids.dropWhile fun m => decide (keyD sl.arena m < e.1))
          = lvlIds sl.arena i (ids.takeWhile fun m => decide (keyD sl.arena m < e.1)) ++
            (if i < h then [sl.arena.length] else []) ++
            lvlIds sl.arena i (ids.dropWhile fun m => decide (keyD sl.arena m < e.1)) := by
        rw [lvlIds_append]
        unfold lvlIds
        rw [List.filter_cons]
        have hcongrtw : List.filter (fun id => decide (i < hgt ar2 id))
            (ids.takeWhile fun m => decide (keyD sl.arena m < e.1))
            = List.filter (fun id => decide (i < hgt sl.arena id))
              (ids.takeWhile fun m => decide (keyD sl.arena m < e.1)) := by
          apply List.filter_congr
          intro a ha
          rw [hhgt2 a (hI.idsLt a (htwsub.subset ha))]
        have hcongrdw : List.filter (fun id => decide (i < hgt ar2 id))
            (ids.dropWhile fun m => decide (keyD sl.arena m < e.1))
            = List.filter (fun id => decide (i < hgt sl.arena id))
              (ids.dropWhile fun m => decide (keyD sl.arena m < e.1)) := by
          apply List.filter_congr
          intro a ha
          rw [hhgt2 a (hI.idsLt a (hdwsub.subset ha))]
        rw [hcongrtw, hcongrdw, hhgt2new]
        by_cases hih : i < h
        · rw [if_pos (by simpa using hih), if_pos hih]
          simp
        · rw [if_neg (by simpa using hih), if_neg hih]
          simp
      rw [hfloor]
      have holdchain : Links sl.arena i sl.head
          (lvlIds sl.arena i (ids.takeWhile fun m => decide (keyD sl.arena m < e.1)) ++
            lvlIds sl.arena i (ids.dropWhile fun m => decide (keyD sl.arena m < e.1))) := by
        have := hI.chains i hi
        rw [hsplit] at this
        rwa [lvlIds_append] at this
      have hlvlnodup : (sl.head ::
          (lvlIds sl.arena i (ids.takeWhile fun m => decide (keyD sl.arena m < e.1)) ++
            lvlIds sl.arena i
              (ids.dropWhile fun m => decide (keyD sl.arena m < e.1)))).Nodup := by
        apply hI.nodup.sublist
        apply List.Sublist.cons₂
        rw [← lvlIds_append, ← hsplit]
        exact List.filter_sublist _
      by_cases hih : i < h
      · rw [if_pos hih, List.append_assoc, List.singleton_append]
        show Links ar2 i sl.head _
        have hstopeq : stopAt sl.arena e sl.head ids i
            = (lvlIds sl.arena i
                (ids.takeWhile fun m => decide (keyD sl.arena m < e.1))).getLastD
                sl.head := stopAt_eq_getLastD hI e i
        obtain ⟨hfnn, hfT, hframe⟩ := hspin i (Nat.zero_le _) (by omega)
        have hTlt' := (hTlt i (by omega)).1
        have hsuffix : Links sl.arena i (stopAt sl.arena e sl.head ids i)
            (lvlIds sl.arena i (ids.dropWhile fun m => decide (keyD sl.arena m < e.1))) := by
          rw [hstopeq]
          exact Links_getLastD holdchain
        have hfwd2eq : ∀ id, id ≠ sl.arena.length →
            id ≠ stopAt sl.arena e sl.head ids i → id < sl.arena.length →
            fwdA ar2 id i = fwdA sl.arena id i := by
          intro id hne1 hne2 hlt
          rw [hbpfwd, hframe id hne1 hne2, fwdA_append hlt]
        have hnewtail : Links ar2 i sl.arena.length
            (lvlIds sl.arena i (ids.dropWhile fun m => decide (keyD sl.arena m < e.1))) := by
          have hfwd2nn : fwdA ar2 sl.arena.length i
              = fwdA sl.arena (stopAt sl.arena e sl.head ids i) i := by
            rw [hbpfwd, hfnn, fwdA_append hTlt']
          rcases hBeq : lvlIds sl.arena i
              (ids.dropWhile fun m => decide (keyD sl.arena m < e.1)) with _ | ⟨b, B'⟩
          · show fwdA ar2 sl.arena.length i = some none
            rw [hfwd2nn]
            have := hsuffix
            rw [hBeq] at this
            exact this
          · have hsfx := hsuffix
            rw [hBeq] at hsfx
            refine ⟨?_, ?_⟩
            · rw [hfwd2nn]
              exact hsfx.1
            · refine Links_mono hsfx.2 ?_
              intro id hid
              have hidmem : id ∈ lvlIds sl.arena i
                  (ids.dropWhile fun m => decide (keyD sl.arena m < e.1)) := by
                rw [hBeq]
                rcases hid with _ | hid
                · simp
                · simp
                  right
                  assumption
              have hidlt : id < sl.arena.length :=
                hI.idsLt id (hdwsub.subset (mem_lvlIds_hgt hidmem).1)
              refine hfwd2eq id ?_ ?_ hidlt
              · omega
              · have hTmem : stopAt sl.arena e sl.head ids i ∈ sl.head ::
                    lvlIds sl.arena i
                      (ids.takeWhile fun m => decide (keyD sl.arena m < e.1)) := by
                  rw [hstopeq]
                  exact getLastD_mem sl.head
                exact (nodup_cross hlvlnodup hTmem hidmem).symm
        refine Links_glue holdchain ?_ ?_ ?_
        · apply hI.nodup.sublist
          apply List.Sublist.cons₂
          exact (List.filter_sublist _).trans htwsub
        · intro id hid hne
          have hidlt : id < sl.arena.length := by
            rcases hid with _ | hid
            · exact hhd
            · exact hI.idsLt id (htwsub.subset (mem_lvlIds_hgt (by assumption)).1)
          refine hfwd2eq id (by omega) ?_ hidlt
          rw [hstopeq]
          exact hne
        · rw [← hstopeq]
          refine ⟨?_, hnewtail⟩
          rw [hbpfwd]
          exact hfT
      · rw [if_neg hih, List.append_nil]
        show Links ar2 i sl.head _
        refine Links_mono holdchain ?_
        intro id hid
        have hidlt : id < sl.arena.length := by
          rcases hid with _ | hid
          · exact hhd
          · rcases List.mem_append.mp (by assumption) with hx | hx
            · exact hI.idsLt id (htwsub.subset (mem_lvlIds_hgt hx).1)
            · exact hI.idsLt id (hdwsub.subset (mem_lvlIds_hgt hx).1)
        rw [hbpfwd, hspout id i (by omega), fwdA_append hidlt]
    · -- sorted
      show List.Pairwise (fun a b => keyD ar2 a < keyD ar2 b) _
      apply List.pairwise_append.mpr
      refine ⟨?_, ?_, ?_⟩
      · refine (hI.sorted.sublist htwsub).imp_of_mem ?_
        intro a b ha hb hr
        rw [hkey2 a (hI.idsLt a (htwsub.subset ha)),
          hkey2 b (hI.idsLt b (htwsub.subset hb))]
        exact hr
      · refine List.pairwise_cons.mpr ⟨?_, ?_⟩
        · intro x hx
          rw [hkey2new, hkey2 x (hI.idsLt x (hdwsub.subset hx))]
          exact hdwkey x hx
        · refine (hI.sorted.sublist hdwsub).imp_of_mem ?_
          intro a b ha hb hr
          rw [hkey2 a (hI.idsLt a (hdwsub.subset ha)),
            hkey2 b (hI.idsLt b (hdwsub.subset hb))]
          exact hr
      · intro a ha b hb
        have hka : keyD ar2 a < e.1 := by
          rw [hkey2 a (hI.idsLt a (htwsub.subset ha))]
          exact htwkey a ha
        rcases List.mem_cons.mp hb with rfl | hb
        · rw [hkey2new]
          exact hka
        · rw [hkey2 b (hI.idsLt b (hdwsub.subset hb))]
          have := hdwkey b hb
          omega
    · -- numEq
      show (sl.num + 1) % U = _
      have e1 := hI.numEq
      have e2 := hI.numLt
      rw [Nat.mod_eq_of_lt (by omega)]
      rw [List.length_append, List.length_cons]
      have : ids.length = (ids.takeWhile fun m => decide (keyD sl.arena m < e.1)).length +
          (ids.dropWhile fun m => decide (keyD sl.arena m < e.1)).length := by
        conv_lhs => rw [hsplit]
        rw [List.length_append]
      omega
    · -- numLt
      rw [List.length_append, List.length_cons]
      have : ids.length = (ids.takeWhile fun m => decide (keyD sl.arena m < e.1)).length +
          (ids.dropWhile fun m => decide (keyD sl.arena m < e.1)).length := by
        conv_lhs => rw [hsplit]
        rw [List.length_append]
      omega
    · -- cacheLen
      show (if h > sl.level then raiseCache sl.head c' sl.level (h - sl.level)
            else c').length = sl.maxLevel
      by_cases hcase : h > sl.level
      · rw [if_pos hcase, (raiseCache_spec sl.head (h - sl.level) sl.level c').1]
        exact hc'len
      · rw [if_neg hcase]
        exact hc'len
    · -- pcLen
      exact hpc'len
    · -- emptyTrail: the new list is nonempty
      intro h0
      exfalso
      have h0' : (sl.num + 1) % U = 0 := h0
      have e1 := hI.numEq
      have e2 := hI.numLt
      rw [Nat.mod_eq_of_lt (by omega)] at h0'
      omega
  refine ⟨_, ?_, hInv, ?_, rfl, rfl, rfl, hent2new, fun id hid => hent2 id (hI.idsLt id hid)⟩
  · unfold insertFresh
    dsimp only
    rw [hsp, bbind_some, hbp, bbind_some]
  · show (sl.num + 1) % U = sl.num + 1
    have := hI.numEq
    have := hI.numLt
    apply Nat.mod_eq_of_lt
    omega

theorem stopAt_nil (ar : List Node) (e : Entry) (hd : Nat) (j : Nat) :
    stopAt ar e hd [] j = hd := rfl

/-- In-place update of the entry of a stored node, with the same key,
preserves the invariant. -/
theorem insertUpdate_Inv {sl : SkipList} {ids : List Nat} (hI : Inv sl ids)
    {nid : Nat} (hmem : nid ∈ ids) {e : Entry} (hkey : keyD sl.arena nid = e.1)
    {ar' : List Node} (hset : setEntA sl.arena nid (some e) = some ar')
    (c' : List (Option Nat)) (pc' : List Nat) (hc'len : c'.length = sl.maxLevel)
    (hpc'len : pc'.length = sl.maxLevel) (hns : sl.num ≠ 0) :
    Inv { sl with arena := ar', cache := c', posCache := pc' } ids := by
  have hlen := length_setEntA hset
  have hhdne : sl.head ≠ nid := fun heq =>
    (List.nodup_cons.mp hI.nodup).1 (heq ▸ hmem)
  have hkeyall : ∀ x, keyD ar' x = keyD sl.arena x := by
    intro x
    rcases eq_or_ne x nid with rfl | hne
    · rw [keyD_of_entA (entA_setEntA_self hset), hkey]
    · exact keyD_eq_of_entA (entA_setEntA_ne hset x hne)
  have hgteq : ∀ x, hgt ar' x = hgt sl.arena x := hgt_setEntA hset
  refine Inv.mk ?_ ?_ hI.levelLt ?_ ?_ ?_ ?_ ?_ ?_ ?_ hc'len hpc'len ?_
  · show sl.head < ar'.length
    rw [hlen]
    exact hI.headLt
  · obtain ⟨he, hh, hw⟩ := headOk_facts hI
    exact headOk_build (by show sl.head < ar'.length; rw [hlen]; exact hI.headLt)
      (by rw [entA_setEntA_ne hset sl.head hhdne]; exact he)
      (by rw [hgt_setEntA hset]; exact hh)
      (by rw [wlenA_setEntA hset]; exact hw)
  · intro id hid
    obtain ⟨hlt, ⟨ent, hent⟩, hwh, hpos1, hle⟩ := nodeOk_shape (hI.nodesOk id hid)
    rcases eq_or_ne id nid with rfl | hne
    · exact nodeOk_build (show id < ar'.length by omega) ⟨e, entA_setEntA_self hset⟩
        (by rw [wlenA_setEntA hset, hgt_setEntA hset]; exact hwh)
        (by rw [hgt_setEntA hset]; exact hpos1)
        (by rw [hgt_setEntA hset]; exact hle)
    · exact nodeOk_build (show id < ar'.length by omega)
        ⟨ent, by rw [entA_setEntA_ne hset id hne]; exact hent⟩
        (by rw [wlenA_setEntA hset, hgt_setEntA hset]; exact hwh)
        (by rw [hgt_setEntA hset]; exact hpos1)
        (by rw [hgt_setEntA hset]; exact hle)
  · intro id hid
    show id < ar'.length
    rw [hlen]
    exact hI.idsLt id hid
  · exact hI.nodup
  · intro i hi
    show Links ar' i sl.head _
    rw [lvlIds_congr fun id _ => hgteq id]
    exact Links_mono (hI.chains i hi) fun id _ => fwdA_setEntA hset id i
  · refine hI.sorted.imp_of_mem ?_
    intro a b _ _ hr
    rw [hkeyall a, hkeyall b]
    exact hr
  · exact hI.numEq
  · exact hI.numLt
  · intro h0
    exact absurd h0 hns

/-- Full characterisation of a by-key insert on a state satisfying the
invariant: it succeeds and the invariant is preserved. -/
theorem insert_run {sl : SkipList} {ids : List Nat} (hI : Inv sl ids) (e : Entry)
    (h : Nat) (hh1 : 1 ≤ h) (hh2 : h ≤ sl.maxLevel - 1)
    (hroom : ids.length + 2 < U) :
    ∃ ret sl' ids', sl.insert e h = some (ret, sl') ∧ Inv sl' ids' ∧
      sl'.maxLevel = sl.maxLevel ∧ sl'.head = sl.head ∧
      ids'.length ≤ ids.length + 1 := by
  by_cases hnum : sl.num = 0
  · -- empty list: search returns early, fresh insert
    have hids : ids = [] := by
      have := hI.numEq
      cases ids with
      | nil => rfl
      | cons a l => rw [hnum] at this; cases this
    have hsearch : sl.search e true = some (none, 1, sl.cache, sl.posCache) := by
      unfold SkipList.search
      rw [if_pos hnum]
    obtain ⟨sl', heq, hinv, -, hmax, hhd, -, -, -⟩ :=
      insertFresh_run hI e hh1 hh2 hroom
        (by
          intro nid hnid
          rw [hids] at hnid
          cases hnid)
        1 hI.cacheLen hI.pcLen
        (by
          intro j hj
          rw [hids, stopAt_nil]
          exact hI.emptyTrail hnum j hj)
    refine ⟨none, sl', _, ?_, hinv, hmax, hhd, ?_⟩
    · unfold SkipList.insert
      rw [hsearch, bbind_some]
      exact heq
    · rw [hids]
      simp
  · obtain ⟨p, c', pc', hsearch, hc'len, hpc'len, htrail, -, -⟩ := search_run hI e hnum
    have hinsunfold : sl.insert e h
        = insertNode sl (firstGE sl.arena e ids) e p c' pc' false h := by
      unfold SkipList.insert
      rw [hsearch, bbind_some]
    cases hfge : firstGE sl.arena e ids with
    | none =>
      have hdwnil : ids.dropWhile (fun m => decide (keyD sl.arena m < e.1)) = [] := by
        unfold firstGE at hfge
        exact List.head?_eq_none_iff.mp hfge
      obtain ⟨sl', heq, hinv, -, hmax, hhd, -, -, -⟩ :=
        insertFresh_run hI e hh1 hh2 hroom
          (by intro nid hnid; rw [hdwnil] at hnid; cases hnid)
          p hc'len hpc'len (fun j hj => htrail j (by omega))
      refine ⟨none, sl', _, ?_, hinv, hmax, hhd, ?_⟩
      · rw [hinsunfold, hfge]
        show insertFresh sl e p c' pc' h = _
        exact heq
      · rw [List.length_append, List.length_cons]
        have hlensplit : ids.length =
            (ids.takeWhile fun m => decide (keyD sl.arena m < e.1)).length +
            (ids.dropWhile fun m => decide (keyD sl.arena m < e.1)).length := by
          conv_lhs => rw [(List.takeWhile_append_dropWhile
            (fun m => decide (keyD sl.arena m < e.1)) ids).symm]
          rw [List.length_append]
        omega
    | some nid =>
      obtain ⟨hnidmem, hnidfalse⟩ := head?_dropWhile_mem_false hfge
      have hnidin : nid ∈ ids := hnidmem
      have hnidnotlt : ¬ keyD sl.arena nid < e.1 := by simpa using hnidfalse
      obtain ⟨cv, hcv, hcvlt, hcveq⟩ :=
        cmpA_of_hasEnt (hasEnt_of_nodeOk (hI.nodesOk nid hnidin)) e
      by_cases hkeyeq : keyD sl.arena nid = e.1
      · -- update in place
        obtain ⟨n, hn⟩ := getElem?_isSome_of_lt (hI.idsLt nid hnidin)
        have hsetE : setEntA sl.arena nid (some e)
            = some (sl.arena.set nid { n with entry := some e }) := by
          unfold setEntA
          rw [hn]
        refine ⟨(sl.arena[nid]?).map (·.entry) |>.getD none, _, ids, ?_,
          insertUpdate_Inv hI hnidin hkeyeq hsetE c' pc' hc'len hpc'len hnum,
          rfl, rfl, by omega⟩
        rw [hinsunfold, hfge]
        show (cmpA sl.arena nid e).bind _ = _
        rw [hcv, Option.some_bind, if_pos (hcveq.mpr hkeyeq)]
        show (entA sl.arena nid).bind _ = _
        rw [show entA sl.arena nid = some n.entry from by unfold entA; rw [hn]; rfl,
          Option.some_bind]
        show (setEntA sl.arena nid (some e)).bind _ = _
        rw [hsetE, Option.some_bind, hn]
        rfl
      · -- fresh insert before the strictly greater successor
        obtain ⟨sl', heq, hinv, -, hmax, hhd, -, -, -⟩ :=
          insertFresh_run hI e hh1 hh2 hroom
            (by
              intro nid' hnid'
              have : nid' = nid := by
                unfold firstGE at hfge
                rw [hfge] at hnid'
                exact (Option.some.inj hnid').symm
              rw [this]
              exact hkeyeq)
            p hc'len hpc'len (fun j hj => htrail j (by omega))
        refine ⟨none, sl', _, ?_, hinv, hmax, hhd, ?_⟩
        · rw [hinsunfold, hfge]
          show (cmpA sl.arena nid e).bind _ = _
          rw [hcv, Option.some_bind,
            if_neg (fun hc0 => hkeyeq (hcveq.mp hc0))]
          exact heq
        · rw [List.length_append, List.length_cons]
          have hlensplit : ids.length =
              (ids.takeWhile fun m => decide (keyD sl.arena m < e.1)).length +
              (ids.dropWhile fun m => decide (keyD sl.arena m < e.1)).length := by
            conv_lhs => rw [(List.takeWhile_append_dropWhile
              (fun m => decide (keyD sl.arena m < e.1)) ids).symm]
            rw [List.length_append]
          omega

/-! ### Delete preserves the invariant -/

theorem delOne_run {nid : Nat} {cache : List (Option Nat)} {i : Nat} {ar : List Node}
    {cid : Nat} (hcache : cache[i]? = some (some cid))
    (hcid : cid < ar.length) (hcidh : i < hgt ar cid) (hcidw : i < wlenA ar cid)
    (hnb : fwdA ar cid i = some (some nid) → i < hgt ar nid ∧ i < wlenA ar nid)
    (hnid : nid < ar.length) :
    ∃ ar', delOne nid cache i ar = some ar' ∧
      ar'.length = ar.length ∧
      (∀ id, entA ar' id = entA ar id) ∧
      (∀ id, hgt ar' id = hgt ar id) ∧
      (∀ id, wlenA ar' id = wlenA ar id) ∧
      (∀ id j, id ≠ cid ∨ j ≠ i → fwdA ar' id j = fwdA ar id j) ∧
      ((fwdA ar cid i = some (some nid) ∧ fwdA ar' cid i = fwdA ar nid i) ∨
       (fwdA ar cid i ≠ some (some nid) ∧ fwdA ar' cid i = fwdA ar cid i)) := by
  obtain ⟨f, hf⟩ := fwdA_total hcid hcidh
  by_cases hfs : f = some nid
  · subst hfs
    obtain ⟨hnh, hnw⟩ := hnb hf
    obtain ⟨nw, hnwv⟩ := widA_total hnid hnw
    obtain ⟨nf, hnfv⟩ := fwdA_total hnid hnh
    obtain ⟨cw, hcwv⟩ := widA_total hcid hcidw
    obtain ⟨ar1, har1⟩ := setWidA_total ((cw + usub nw 1) % U) hcid hcidw
    have hlen1 := length_setWidA har1
    obtain ⟨ar2, har2⟩ := setFwdA_total nf (show cid < ar1.length by omega)
      (show i < hgt ar1 cid by rw [hgt_setWidA har1]; exact hcidh)
    refine ⟨ar2, ?_, ?_, ?_, ?_, ?_, ?_, ?_⟩
    · unfold delOne
      rw [hcache, bbind_some, bbind_some, hf, bbind_some]
      dsimp only
      rw [if_pos rfl, hnwv, bbind_some, hnfv, bbind_some, hcwv, bbind_some,
        har1, bbind_some]
      exact har2
    · rw [length_setFwdA har2, hlen1]
    · intro id
      rw [entA_setFwdA har2, entA_setWidA har1]
    · intro id
      rw [hgt_setFwdA har2, hgt_setWidA har1]
    · intro id
      rw [wlenA_setFwdA har2, wlenA_setWidA har1]
    · intro id j hne
      rw [fwdA_setFwdA_ne har2 id j hne, fwdA_setWidA har1]
    · left
      refine ⟨hf, ?_⟩
      rw [fwdA_setFwdA_self har2, hnfv]
  · cases f with
    | none =>
      refine ⟨ar, ?_, rfl, fun _ => rfl, fun _ => rfl, fun _ => rfl,
        fun _ _ _ => rfl, Or.inr ⟨by rw [hf]; exact fun hc => hfs (Option.some.inj hc),
        rfl⟩⟩
      unfold delOne
      rw [hcache, bbind_some, bbind_some, hf, bbind_some]
      dsimp only
      rw [if_neg hfs]
    | some m =>
      obtain ⟨cw, hcwv⟩ := widA_total hcid hcidw
      obtain ⟨ar', har'⟩ := setWidA_total (usub cw 1) hcid hcidw
      refine ⟨ar', ?_, length_setWidA har', fun id => entA_setWidA har' id,
        fun id => hgt_setWidA har' id, fun id => wlenA_setWidA har' id,
        fun id j _ => fwdA_setWidA har' id j,
        Or.inr ⟨by rw [hf]; exact fun hc => hfs (Option.some.inj hc),
          fwdA_setWidA har' cid i⟩⟩
      unfold delOne
      rw [hcache, bbind_some, bbind_some, hf, bbind_some]
      dsimp only
      rw [if_neg hfs]
      show (widA ar cid i).bind _ = _
      rw [hcwv, Option.some_bind]
      exact har'

theorem delLevels_run {nid : Nat} {cache : List (Option Nat)} (T : Nat → Nat) :
    ∀ (k i : Nat) (ar : List Node),
      (∀ j, i ≤ j → j < i + k →
        cache[j]? = some (some (T j)) ∧ T j ≠ nid ∧
        T j < ar.length ∧ j < hgt ar (T j) ∧ j < wlenA ar (T j) ∧
        (fwdA ar (T j) j = some (some nid) → j < hgt ar nid ∧ j < wlenA ar nid)) →
      nid < ar.length →
      ∃ ar', delLevels nid cache i k ar = some ar' ∧
        ar'.length = ar.length ∧
        (∀ id, entA ar' id = entA ar id) ∧
        (∀ id, hgt ar' id = hgt ar id) ∧
        (∀ id, wlenA ar' id = wlenA ar id) ∧
        (∀ id j, (j < i ∨ i + k ≤ j) ∨ id ≠ T j → fwdA ar' id j = fwdA ar id j) ∧
        (∀ j, i ≤ j → j < i + k →
          ((fwdA ar (T j) j = some (some nid) ∧
            fwdA ar' (T j) j = fwdA ar nid j) ∨
           (fwdA ar (T j) j ≠ some (some nid) ∧
            fwdA ar' (T j) j = fwdA ar (T j) j)))
  | 0, i, ar => by
    intro _ _
    exact ⟨ar, rfl, rfl, fun _ => rfl, fun _ => rfl, fun _ => rfl,
      fun id j _ => rfl, fun j h1 h2 => absurd h2 (by omega)⟩
  | k + 1, i, ar => by
    intro hcond hnn
    obtain ⟨hc, hne, hlt, hh, hw, hb⟩ := hcond i (le_refl _) (by omega)
    obtain ⟨ar1, heq1, hlen1, hent1, hhgt1, hwlen1, hfr1, hdich1⟩ :=
      delOne_run hc hlt hh hw hb hnn
    obtain ⟨ar', heq2, hlen2, hent2, hhgt2, hwlen2, hfr2, hdich2⟩ :=
      delLevels_run T k (i + 1) ar1
        (fun j h1 h2 => by
          obtain ⟨c1, c2, c3, c4, c5, c6⟩ := hcond j (by omega) (by omega)
          refine ⟨c1, c2, by omega, by rw [hhgt1]; exact c4,
            by rw [hwlen1]; exact c5, ?_⟩
          intro hfj
          rw [hfr1 (T j) j (Or.inr (by omega))] at hfj
          obtain ⟨d1, d2⟩ := c6 hfj
          exact ⟨by rw [hhgt1]; exact d1, by rw [hwlen1]; exact d2⟩)
        (by omega)
    refine ⟨ar', ?_, by omega, fun id => by rw [hent2, hent1],
      fun id => by rw [hhgt2, hhgt1], fun id => by rw [hwlen2, hwlen1], ?_, ?_⟩
    · rw [delLevels, heq1, bbind_some]
      exact heq2
    · intro id j hj
      have hstep : fwdA ar1 id j = fwdA ar id j := by
        apply hfr1
        rcases hj with hj | hj
        · rcases hj with hj | hj
          · right; omega
          · right; omega
        · rcases eq_or_ne j i with rfl | hne'
          · left; exact hj
          · right; exact hne'
      rw [← hstep]
      apply hfr2
      rcases hj with hj | hj
      · rcases hj with hj | hj
        · left; left; omega
        · left; right; omega
      · right; exact hj
    · intro j h1 h2
      rcases eq_or_ne j i with rfl | hne'
      · have hT1 : fwdA ar' (T j) j = fwdA ar1 (T j) j :=
          hfr2 (T j) j (Or.inl (Or.inl (by omega)))
        have hN1 : fwdA ar' nid j = fwdA ar1 nid j := by
          apply hfr2
          right
          exact fun hcon =>
            (hcond j (le_refl _) (by omega)).2.1 hcon.symm
        rcases hdich1 with ⟨d1, d2⟩ | ⟨d1, d2⟩
        · left
          refine ⟨d1, ?_⟩
          rw [hT1, d2]
        · right
          exact ⟨d1, by rw [hT1, d2]⟩
      · have hA : fwdA ar1 (T j) j = fwdA ar (T j) j :=
          hfr1 (T j) j (Or.inr hne')
        have hB : fwdA ar1 nid j = fwdA ar nid j :=
          hfr1 nid j (Or.inr hne')
        rcases hdich2 j (by omega) (by omega) with ⟨d1, d2⟩ | ⟨d1, d2⟩
        · left
          rw [hA] at d1
          refine ⟨d1, ?_⟩
          rw [d2, hB]
        · right
          rw [hA] at d1 d2
          exact ⟨d1, d2⟩

theorem shrinkLoop_run {hd : Nat} : ∀ (lvl : Nat) (ar : List Node),
    hd < ar.length → (∀ j, j < lvl → j < hgt ar hd) →
    (∀ j, j ≤ lvl → j < wlenA ar hd) →
    ∃ ar' lvl', shrinkLoop hd lvl ar = some (ar', lvl') ∧
      ar'.length = ar.length ∧
      (∀ id, entA ar' id = entA ar id) ∧
      (∀ id, hgt ar' id = hgt ar id) ∧
      (∀ id, wlenA ar' id = wlenA ar id) ∧
      (∀ id j, fwdA ar' id j = fwdA ar id j) ∧
      lvl' ≤ lvl ∧ (1 ≤ lvl → 1 ≤ lvl') ∧
      (∀ j, lvl' ≤ j → j < lvl → fwdA ar hd j = some none)
  | 0, ar => by
    intro _ _ _
    exact ⟨ar, 0, rfl, rfl, fun _ => rfl, fun _ => rfl, fun _ => rfl,
      fun _ _ => rfl, le_refl _, fun h => h, fun j h1 h2 => absurd h2 (by omega)⟩
  | 1, ar => by
    intro _ _ _
    exact ⟨ar, 1, rfl, rfl, fun _ => rfl, fun _ => rfl, fun _ => rfl,
      fun _ _ => rfl, le_refl _, fun _ => le_refl _,
      fun j h1 h2 => absurd (lt_of_le_of_lt h1 h2) (by omega)⟩
  | l + 2, ar => by
    intro hhd hh hw
    obtain ⟨f, hf⟩ := fwdA_total hhd (hh (l + 1) (by omega))
    cases f with
    | some m =>
      refine ⟨ar, l + 2, ?_, rfl, fun _ => rfl, fun _ => rfl, fun _ => rfl,
        fun _ _ => rfl, le_refl _, fun _ => by omega,
        fun j h1 h2 => absurd (lt_of_le_of_lt h1 h2) (by omega)⟩
      unfold shrinkLoop
      rw [hf, bbind_some]
    | none =>
      obtain ⟨ar1, har1⟩ := setWidA_total 0 hhd (hw (l + 2) (le_refl _))
      obtain ⟨ar', lvl', heq, hlen, hent, hhgt, hwlen, hfwd, hle, hpos, hnil⟩ :=
        shrinkLoop_run (l + 1) ar1
          (by rw [length_setWidA har1]; exact hhd)
          (fun j hj => by rw [hgt_setWidA har1]; exact hh j (by omega))
          (fun j hj => by rw [wlenA_setWidA har1]; exact hw j (by omega))
      refine ⟨ar', lvl', ?_, by rw [hlen, length_setWidA har1],
        fun id => by rw [hent, entA_setWidA har1],
        fun id => by rw [hhgt, hgt_setWidA har1],
        fun id => by rw [hwlen, wlenA_setWidA har1],
        fun id j => by rw [hfwd, fwdA_setWidA har1], by omega, fun _ => hpos (by omega),
        ?_⟩
      · unfold shrinkLoop
        rw [hf, bbind_some]
        dsimp only
        rw [har1, bbind_some]
        exact heq
      · intro j h1 h2
        rcases Nat.lt_or_ge j (l + 1) with hj | hj
        · have := hnil j h1 hj
          rwa [fwdA_setWidA har1] at this
        · have hj2 : j = l + 1 := by omega
          rw [hj2]
          exact hf

/-- At every level, the stop node's forward pointer is the head of the
level's dropped chain. -/
theorem fwdA_stopAt {sl : SkipList} {ids : List Nat} (hI : Inv sl ids) (e : Entry)
    {j : Nat} (hj : j < sl.maxLevel) :
    fwdA sl.arena (stopAt sl.arena e sl.head ids j) j =
      some (lvlIds sl.arena j
        (ids.dropWhile fun m => decide (keyD sl.arena m < e.1))).head? := by
  have hchain := hI.chains j hj
  rw [show ids = (ids.takeWhile fun m => decide (keyD sl.arena m < e.1)) ++
      ids.dropWhile fun m => decide (keyD sl.arena m < e.1) from
    (List.takeWhile_append_dropWhile _ _).symm, lvlIds_append] at hchain
  rw [stopAt_eq_getLastD hI e j]
  exact Links_fwd_head (Links_getLastD hchain)

/-- Full characterisation of a by-key delete on a state satisfying the
invariant: it always succeeds and preserves the invariant; a matching
node leaves the id list and `num` drops by one. -/
theorem delete_run {sl : SkipList} {ids : List Nat} (hI : Inv sl ids) (e : Entry) :
    ∃ ret sl' ids', sl.delete e = some (ret, sl') ∧ Inv sl' ids' ∧
      sl'.maxLevel = sl.maxLevel ∧ sl'.head = sl.head ∧
      ids'.length ≤ ids.length := by
  by_cases hnum : sl.num = 0
  · have hsearch : sl.search e true = some (none, 1, sl.cache, sl.posCache) := by
      unfold SkipList.search
      rw [if_pos hnum]
    refine ⟨none, _, ids, ?_, hI, rfl, rfl, le_refl _⟩
    unfold SkipList.delete
    rw [hsearch, bbind_some]
  · obtain ⟨p, c', pc', hsearch, hc'len, hpc'len, htrail, -, -⟩ := search_run hI e hnum
    have hInvSwap : Inv { sl with cache := c', posCache := pc' } ids :=
      Inv.mk hI.headLt hI.headOk hI.levelLt hI.nodesOk hI.idsLt hI.nodup
        hI.chains hI.sorted hI.numEq hI.numLt hc'len hpc'len
        (fun h0 => absurd h0 hnum)
    cases hfge : firstGE sl.arena e ids with
    | none =>
      refine ⟨none, _, ids, ?_, hInvSwap, rfl, rfl, le_refl _⟩
      unfold SkipList.delete
      rw [hsearch, bbind_some, hfge]
    | some nid =>
      obtain ⟨hnidmem, hnidfalse⟩ := head?_dropWhile_mem_false hfge
      obtain ⟨cv, hcv, -, hcveq⟩ :=
        cmpA_of_hasEnt (hasEnt_of_nodeOk (hI.nodesOk nid hnidmem)) e
      by_cases hkeyeq : keyD sl.arena nid = e.1
      · -- exact match: unlink nid and shrink the level
        rcases hdweq : ids.dropWhile fun m => decide (keyD sl.arena m < e.1)
          with _ | ⟨b, dw'⟩
        · exfalso
          unfold firstGE at hfge
          rw [hdweq] at hfge
          cases hfge
        · have hb : b = nid := by
            unfold firstGE at hfge
            rw [hdweq] at hfge
            exact Option.some.inj hfge
          subst b
          have hsplit : ids = (ids.takeWhile fun m => decide (keyD sl.arena m < e.1))
              ++ nid :: dw' := by
            rw [← hdweq]
            exact (List.takeWhile_append_dropWhile _ _).symm
          have htwsub : List.Sublist
              (ids.takeWhile fun m => decide (keyD sl.arena m < e.1)) ids :=
            List.takeWhile_sublist _
          obtain ⟨hnidlt, ⟨ent, hent⟩, hnidwh, hnidpos, hnidle⟩ :=
            nodeOk_shape (hI.nodesOk nid hnidmem)
          have hhd := hI.headLt
          obtain ⟨hhdent, hhdhgt, hhdwlen⟩ := headOk_facts hI
          have hlvlmx := hI.levelLt
          have hidsnodup : ids.Nodup := (List.nodup_cons.mp hI.nodup).2
          have hnidnotdw' : nid ∉ dw' := by
            have h1 : (nid :: dw').Nodup := by
              rw [← hdweq]
              exact hidsnodup.sublist (List.dropWhile_sublist _)
            exact (List.nodup_cons.mp h1).1
          have hheadne : sl.head ≠ nid :=
            fun heq => (List.nodup_cons.mp hI.nodup).1 (heq ▸ hnidmem)
          have hTlt : ∀ j, j < sl.maxLevel →
              stopAt sl.arena e sl.head ids j < sl.arena.length ∧
              j < hgt sl.arena (stopAt sl.arena e sl.head ids j) ∧
              j < wlenA sl.arena (stopAt sl.arena e sl.head ids j) := by
            intro j hj
            rcases stopAt_cases sl.arena e sl.head ids j with hc | ⟨hc1, -⟩
            · rw [hc]
              exact ⟨hhd, by rw [hhdhgt]; exact hj, by rw [hhdwlen]; exact hj⟩
            · obtain ⟨hin, hg⟩ := mem_lvlIds_hgt hc1
              obtain ⟨hlt, -, hwh, -, -⟩ := nodeOk_shape (hI.nodesOk _ hin)
              exact ⟨hlt, hg, by rw [hwh]; exact hg⟩
          have hTne : ∀ j, stopAt sl.arena e sl.head ids j ≠ nid := by
            intro j
            rcases stopAt_cases sl.arena e sl.head ids j with hc | ⟨-, hc2⟩
            · rw [hc]
              exact hheadne
            · intro heq
              rw [heq, hkeyeq] at hc2
              exact lt_irrefl _ hc2
          have hLdw : ∀ lvl, lvlIds sl.arena lvl (nid :: dw')
              = if lvl < hgt sl.arena nid then nid :: lvlIds sl.arena lvl dw'
                else lvlIds sl.arena lvl dw' := by
            intro lvl
            unfold lvlIds
            rw [List.filter_cons]
            by_cases hl : lvl < hgt sl.arena nid
            · rw [if_pos (by simpa using hl), if_pos hl]
            · rw [if_neg (by simpa using hl), if_neg hl]
          have hTfwd : ∀ j, j < sl.maxLevel →
              fwdA sl.arena (stopAt sl.arena e sl.head ids j) j
                = some (lvlIds sl.arena j (nid :: dw')).head? := by
            intro j hj
            rw [← hdweq]
            exact fwdA_stopAt hI e hj
          obtain ⟨ar1, hdel, hlen1, hent1, hhgt1, hwlen1, hfr1, hdich1⟩ :=
            @delLevels_run nid c' (stopAt sl.arena e sl.head ids)
              (sl.level + 1) 0 sl.arena
              (by
                intro j h0 hjk
                have hjmx : j < sl.maxLevel := by omega
                obtain ⟨t1, t2, t3⟩ := hTlt j hjmx
                refine ⟨htrail j (by omega), hTne j, t1, t2, t3, ?_⟩
                intro hfj
                rw [hTfwd j hjmx] at hfj
                have hmem : nid ∈ lvlIds sl.arena j (nid :: dw') :=
                  List.mem_of_mem_head? (Option.some.inj hfj)
                have hhg := (mem_lvlIds_hgt hmem).2
                exact ⟨hhg, by rw [hnidwh]; exact hhg⟩)
              hnidlt
          have hchain1 : ∀ lvl, lvl < sl.maxLevel →
              Links ar1 lvl sl.head
                (lvlIds sl.arena lvl
                  ((ids.takeWhile fun m => decide (keyD sl.arena m < e.1)) ++ dw')) := by
            intro lvl hlvl
            rw [lvlIds_append]
            have holdchain := hI.chains lvl hlvl
            rw [hsplit, lvlIds_append, hLdw lvl] at holdchain
            have hlvlnodup : (sl.head :: (lvlIds sl.arena lvl
                (ids.takeWhile fun m => decide (keyD sl.arena m < e.1)) ++
                lvlIds sl.arena lvl (nid :: dw'))).Nodup := by
              apply hI.nodup.sublist
              apply List.Sublist.cons₂
              rw [← lvlIds_append, ← hsplit]
              exact List.filter_sublist _
            by_cases hcase : lvl < hgt sl.arena nid
            · rw [if_pos hcase] at holdchain
              have hstopeq : stopAt sl.arena e sl.head ids lvl
                  = (lvlIds sl.arena lvl
                      (ids.takeWhile fun m => decide (keyD sl.arena m < e.1))).getLastD
                      sl.head := stopAt_eq_getLastD hI e lvl
              have hfT : fwdA sl.arena (stopAt sl.arena e sl.head ids lvl) lvl
                  = some (some nid) := by
                rw [hTfwd lvl hlvl, hLdw lvl, if_pos hcase]
                rfl
              have hfar1 : fwdA ar1 (stopAt sl.arena e sl.head ids lvl) lvl
                  = fwdA sl.arena nid lvl := by
                rcases hdich1 lvl (Nat.zero_le _) (by omega) with ⟨-, d2⟩ | ⟨d1, -⟩
                · exact d2
                · exact absurd hfT d1
              have hTlinks : Links sl.arena lvl (stopAt sl.arena e sl.head ids lvl)
                  (nid :: lvlIds sl.arena lvl dw') := by
                rw [hstopeq]
                exact Links_getLastD holdchain
              have hframe : ∀ id, id ≠ stopAt sl.arena e sl.head ids lvl →
                  fwdA ar1 id lvl = fwdA sl.arena id lvl :=
                fun id hne => hfr1 id lvl (Or.inr hne)
              have hTmem : stopAt sl.arena e sl.head ids lvl ∈ sl.head ::
                  lvlIds sl.arena lvl
                    (ids.takeWhile fun m => decide (keyD sl.arena m < e.1)) := by
                rw [hstopeq]
                exact getLastD_mem sl.head
              have hsfx : Links ar1 lvl (stopAt sl.arena e sl.head ids lvl)
                  (lvlIds sl.arena lvl dw') := by
                rcases hLeq : lvlIds sl.arena lvl dw' with _ | ⟨x, X⟩
                · show fwdA ar1 (stopAt sl.arena e sl.head ids lvl) lvl = some none
                  rw [hfar1]
                  have h2 := hTlinks.2
                  rw [hLeq] at h2
                  exact h2
                · have ht2 := hTlinks.2
                  rw [hLeq] at ht2
                  refine ⟨?_, ?_⟩
                  · rw [hfar1]
                    exact ht2.1
                  · refine Links_mono ht2.2 ?_
                    intro id hid
                    apply hframe
                    have hidmem : id ∈ lvlIds sl.arena lvl (nid :: dw') := by
                      rw [hLdw lvl, if_pos hcase]
                      apply List.mem_cons_of_mem
                      rw [hLeq]
                      exact hid
                    exact (nodup_cross hlvlnodup hTmem hidmem).symm
              refine Links_glue holdchain ?_ ?_ ?_
              · apply hI.nodup.sublist
                apply List.Sublist.cons₂
                exact (List.filter_sublist _).trans htwsub
              · intro id hid hne
                apply hframe
                rw [hstopeq]
                exact hne
              · rw [← hstopeq]
                exact hsfx
            · rw [if_neg hcase] at holdchain
              refine Links_mono holdchain ?_
              intro id hid
              by_cases hlev : lvl ≤ sl.level
              · rcases eq_or_ne id (stopAt sl.arena e sl.head ids lvl) with heq | hne
                · rw [heq]
                  rcases hdich1 lvl (Nat.zero_le _) (by omega) with ⟨d1, -⟩ | ⟨-, d2⟩
                  · exfalso
                    rw [hTfwd lvl hlvl, hLdw lvl, if_neg hcase] at d1
                    have hmem := List.mem_of_mem_head? (Option.some.inj d1)
                    exact hnidnotdw' (mem_lvlIds_hgt hmem).1
                  · exact d2
                · exact hfr1 id lvl (Or.inr hne)
              · exact hfr1 id lvl (Or.inl (Or.inr (by omega)))
          have hhd1 : sl.head < ar1.length := by omega
          obtain ⟨ar2, lvl', hshr, hlen2, hent2, hhgt2, hwlen2, hfwd2, hlvlle,
              hlvlpos, hnil⟩ :=
            shrinkLoop_run sl.level ar1 hhd1
              (fun j hj => by rw [hhgt1, hhdhgt]; omega)
              (fun j hj => by rw [hwlen1, hhdwlen]; omega)
          have hentB : ∀ id, entA ar2 id = entA sl.arena id := by
            intro id
            rw [hent2, hent1]
          have hhgtB : ∀ id, hgt ar2 id = hgt sl.arena id := by
            intro id
            rw [hhgt2, hhgt1]
          have hwlenB : ∀ id, wlenA ar2 id = wlenA sl.arena id := by
            intro id
            rw [hwlen2, hwlen1]
          have hkeyB : ∀ id, keyD ar2 id = keyD sl.arena id :=
            fun id => keyD_eq_of_entA (hentB id)
          have hchain2 : ∀ lvl, lvl < sl.maxLevel →
              Links ar2 lvl sl.head
                (lvlIds sl.arena lvl
                  ((ids.takeWhile fun m => decide (keyD sl.arena m < e.1)) ++ dw')) :=
            fun lvl hlvl =>
              Links_mono (hchain1 lvl hlvl) fun id _ => hfwd2 id lvl
          have hhgtle : ∀ id ∈ (ids.takeWhile fun m =>
                decide (keyD sl.arena m < e.1)) ++ dw',
              hgt sl.arena id ≤ lvl' := by
            intro id hid
            by_contra hgt'
            push_neg at hgt'
            have hidids : id ∈ ids := by
              rw [hsplit]
              rcases List.mem_append.mp hid with hx | hx
              · exact List.mem_append.mpr (Or.inl hx)
              · exact List.mem_append.mpr (Or.inr (List.mem_cons_of_mem _ hx))
            have hle := hgt_le_level hI id hidids
            have hlvl'lt : lvl' < sl.level := by omega
            have hnl := hnil lvl' (le_refl _) hlvl'lt
            have hchain := hchain1 lvl' (by omega)
            have hmem : id ∈ lvlIds sl.arena lvl'
                ((ids.takeWhile fun m => decide (keyD sl.arena m < e.1)) ++ dw') := by
              unfold lvlIds
              rw [List.mem_filter]
              exact ⟨hid, by simpa using hgt'⟩
            rcases hLeq : lvlIds sl.arena lvl'
                ((ids.takeWhile fun m => decide (keyD sl.arena m < e.1)) ++ dw')
              with _ | ⟨x, X⟩
            · rw [hLeq] at hmem
              cases hmem
            · rw [hLeq] at hchain
              rw [hchain.1] at hnl
              exact Option.noConfusion (Option.some.inj hnl)
          have hnumEq := hI.numEq
          have hnumLt := hI.numLt
          have hlensplit : ids.length =
              (ids.takeWhile fun m => decide (keyD sl.arena m < e.1)).length +
              (dw'.length + 1) := by
            conv_lhs => rw [hsplit]
            rw [List.length_append, List.length_cons]
          have hsub' : List.Sublist
              ((ids.takeWhile fun m => decide (keyD sl.arena m < e.1)) ++ dw') ids := by
            have hs := List.Sublist.append
              (List.Sublist.refl (ids.takeWhile fun m => decide (keyD sl.arena m < e.1)))
              (List.sublist_cons_self nid dw')
            rw [← hsplit] at hs
            exact hs
          have hInv2 : Inv
              { sl with
                num := usub sl.num 1,
                level := lvl',
                arena := ar2,
                cache := c',
                posCache := pc' }
              ((ids.takeWhile fun m => decide (keyD sl.arena m < e.1)) ++ dw') := by
            refine Inv.mk ?_ ?_ ?_ ?_ ?_ ?_ ?_ ?_ ?_ ?_ hc'len hpc'len ?_
            · show sl.head < ar2.length
              omega
            · exact headOk_build (show sl.head < ar2.length by omega)
                (by rw [hentB]; exact hhdent)
                (by rw [hhgtB]; exact hhdhgt)
                (by rw [hwlenB]; exact hhdwlen)
            · show lvl' + 1 ≤ sl.maxLevel
              omega
            · intro id hid
              obtain ⟨hlt, ⟨en2, hen2⟩, hwh, hpos1, -⟩ :=
                nodeOk_shape (hI.nodesOk id (hsub'.subset hid))
              exact nodeOk_build (show id < ar2.length by omega)
                ⟨en2, by rw [hentB]; exact hen2⟩
                (by rw [hwlenB, hhgtB]; exact hwh)
                (by rw [hhgtB]; exact hpos1)
                (by rw [hhgtB]; exact hhgtle id hid)
            · intro id hid
              show id < ar2.length
              have := hI.idsLt id (hsub'.subset hid)
              omega
            · exact hI.nodup.sublist (List.Sublist.cons₂ _ hsub')
            · intro i hi
              show Links ar2 i sl.head _
              rw [lvlIds_congr fun id _ => hhgtB id]
              exact hchain2 i hi
            · refine (hI.sorted.sublist hsub').imp_of_mem ?_
              intro a b _ _ hr
              show keyD ar2 a < keyD ar2 b
              rw [hkeyB a, hkeyB b]
              exact hr
            · show usub sl.num 1 = _
              rw [hnumEq, usub_small (by omega) (by omega), List.length_append]
              omega
            · show _ + 1 < U
              rw [List.length_append]
              omega
            · intro h0
              have h1 : usub sl.num 1 = sl.num - 1 :=
                usub_small (by omega) (by omega)
              have h2 : usub sl.num 1 = 0 := h0
              have hnum1 : ids.length = 1 := by omega
              have htw0 : ids.takeWhile (fun m => decide (keyD sl.arena m < e.1))
                  = [] := by
                have := hlensplit
                exact List.eq_nil_of_length_eq_zero (by omega)
              intro j hj
              have hj' : j < lvl' := hj
              have hj2 : j ≤ sl.level := by omega
              show c'[j]? = some (some sl.head)
              rw [htrail j hj2, stopAt_eq_getLastD hI e j, htw0]
              rfl
          refine ⟨some ent, _, _, ?_, hInv2, rfl, rfl, ?_⟩
          · unfold SkipList.delete
            rw [hsearch, bbind_some, hfge]
            show (cmpA sl.arena nid e).bind _ = _
            rw [hcv, Option.some_bind,
              if_neg (show ¬ cv ≠ 0 from fun hc => hc (hcveq.mpr hkeyeq))]
            show (delLevels nid c' 0 (sl.level + 1) sl.arena).bind _ = _
            rw [hdel, Option.some_bind]
            show (shrinkLoop sl.head sl.level ar1).bind _ = _
            rw [hshr, Option.some_bind]
            show (entA ar2 nid).bind _ = _
            rw [show entA ar2 nid = some (some ent) from by rw [hentB]; exact hent,
              Option.some_bind]
          · rw [List.length_append]
            omega
      · -- key mismatch at the successor: no deletion
        refine ⟨none, _, ids, ?_, hInvSwap, rfl, rfl, le_refl _⟩
        unfold SkipList.delete
        rw [hsearch, bbind_some, hfge]
        show (cmpA sl.arena nid e).bind _ = _
        rw [hcv, Option.some_bind,
          if_pos (show cv ≠ 0 from fun h0 => hkeyeq (hcveq.mp h0))]

/-! ### Ranks and the width invariant -/

/-- The 1-based rank of a stored node (0 for the head sentinel): one plus
the number of level-0 predecessors in the id list. -/
def rkD (hd : Nat) (ids : List Nat) (x : Nat) : Nat :=
  if x = hd then 0 else (ids.takeWhile fun z => decide (z ≠ x)).length + 1

/-- Width honesty along one level's chain: every edge's stored width is
the rank gap to the next node of the chain. -/
def LinksW (ar : List Node) (i : Nat) (R : Nat → Nat) : Nat → List Nat → Prop
  | _, [] => True
  | s, m :: rest => widA ar s i = some (R m - R s) ∧ LinksW ar i R m rest

instance decLinksW (ar : List Node) (i : Nat) (R : Nat → Nat) :
    (s : Nat) → (l : List Nat) → Decidable (LinksW ar i R s l)
  | _, [] => inferInstanceAs (Decidable True)
  | _, m :: rest =>
    haveI := decLinksW ar i R m rest
    inferInstanceAs (Decidable (_ ∧ _))

/-- The width invariant of a reachable state: every level chain carries
honest widths (nil forward slots are unconstrained — `delete` leaves junk
there), and the position scratch buffer is zero at and above the current
level. -/
structure WInv (sl : SkipList) (ids : List Nat) : Prop where
  chainsW : ∀ i < sl.maxLevel,
    LinksW sl.arena i (rkD sl.head ids) sl.head (lvlIds sl.arena i ids)
  pcZero : ∀ j, sl.level ≤ j → j < sl.maxLevel → sl.posCache[j]? = some 0

theorem takeWhile_ne_append_of_mem {x : Nat} : ∀ {A : List Nat} (B : List Nat),
    x ∈ A → (A ++ B).takeWhile (fun z => decide (z ≠ x))
      = A.takeWhile fun z => decide (z ≠ x)
  | [], _, h => absurd h (List.not_mem_nil x)
  | a :: A', B, h => by
    by_cases hax : a = x
    · subst hax
      rw [List.cons_append, List.takeWhile_cons, List.takeWhile_cons,
        if_neg (by simp), if_neg (by simp)]
    · have h' : x ∈ A' := by
        rcases List.mem_cons.mp h with h1 | h1
        · exact absurd h1.symm hax
        · exact h1
      rw [List.cons_append, List.takeWhile_cons, List.takeWhile_cons,
        if_pos (by simp [hax]), if_pos (by simp [hax]),
        takeWhile_ne_append_of_mem B h']

theorem takeWhile_ne_length_lt {x : Nat} : ∀ {l : List Nat}, x ∈ l →
    (l.takeWhile fun z => decide (z ≠ x)).length < l.length
  | [], h => absurd h (List.not_mem_nil x)
  | a :: l', h => by
    by_cases hax : a = x
    · subst hax
      rw [List.takeWhile_cons, if_neg (by simp)]
      simp
    · have h' : x ∈ l' := by
        rcases List.mem_cons.mp h with h1 | h1
        · exact absurd h1.symm hax
        · exact h1
      rw [List.takeWhile_cons, if_pos (by simp [hax]), List.length_cons,
        List.length_cons]
      have := takeWhile_ne_length_lt h'
      omega

theorem rkD_head (hd : Nat) (ids : List Nat) : rkD hd ids hd = 0 := if_pos rfl

theorem rkD_pos {hd x : Nat} (ids : List Nat) (h : x ≠ hd) : 1 ≤ rkD hd ids x := by
  unfold rkD
  rw [if_neg h]
  omega

theorem rkD_le_of_mem {hd x : Nat} {ids : List Nat} (h : x ∈ hd :: ids) :
    rkD hd ids x ≤ ids.length := by
  by_cases hne : x = hd
  · rw [hne, rkD_head]
    omega
  · have h1 : x ∈ ids := by
      rcases List.mem_cons.mp h with h2 | h2
      · exact absurd h2 hne
      · exact h2
    unfold rkD
    rw [if_neg hne]
    have := takeWhile_ne_length_lt h1
    omega

theorem rkD_append_left {hd x : Nat} {A : List Nat} (B : List Nat) (h : x ∈ A) :
    rkD hd (A ++ B) x = rkD hd A x := by
  unfold rkD
  by_cases hx : x = hd
  · rw [if_pos hx, if_pos hx]
  · rw [if_neg hx, if_neg hx, takeWhile_ne_append_of_mem B h]

theorem rkD_append_right {hd x : Nat} {A B : List Nat} (hx : x ≠ hd)
    (h : ∀ a ∈ A, a ≠ x) :
    rkD hd (A ++ B) x = A.length + rkD hd B x := by
  unfold rkD
  rw [if_neg hx, if_neg hx,
    takeWhile_append_all (fun a ha => by simp [h a ha]),
    List.length_append]
  omega

theorem nodup_rk_pairwise : ∀ {l : List Nat}, l.Nodup →
    l.Pairwise fun a b => (l.takeWhile fun z => decide (z ≠ a)).length
      < (l.takeWhile fun z => decide (z ≠ b)).length
  | [], _ => List.Pairwise.nil
  | c :: rest, h => by
    obtain ⟨hc, hrest⟩ := List.nodup_cons.mp h
    refine List.pairwise_cons.mpr ⟨?_, ?_⟩
    · intro b hb
      have hcb : c ≠ b := fun heq => hc (heq ▸ hb)
      rw [List.takeWhile_cons, List.takeWhile_cons, if_neg (by simp),
        if_pos (by simp [hcb])]
      simp
    · refine (nodup_rk_pairwise hrest).imp_of_mem ?_
      intro a b ha hb hr
      have hca : c ≠ a := fun heq => hc (heq ▸ ha)
      have hcb : c ≠ b := fun heq => hc (heq ▸ hb)
      rw [List.takeWhile_cons, List.takeWhile_cons, if_pos (by simp [hca]),
        if_pos (by simp [hcb]), List.length_cons, List.length_cons]
      omega

theorem rkD_pairwise {hd : Nat} {ids : List Nat} (h : (hd :: ids).Nodup) :
    ids.Pairwise fun a b => rkD hd ids a < rkD hd ids b := by
  obtain ⟨hhd, hids⟩ := List.nodup_cons.mp h
  refine (nodup_rk_pairwise hids).imp_of_mem ?_
  intro a b ha hb hr
  unfold rkD
  rw [if_neg (show ¬ a = hd from fun heq => hhd (heq ▸ ha)),
    if_neg (show ¬ b = hd from fun heq => hhd (heq ▸ hb))]
  omega

theorem LinksW_mono {ar ar' : List Node} {i : Nat} {R : Nat → Nat} :
    ∀ {s : Nat} {l : List Nat}, LinksW ar i R s l →
      (∀ id ∈ s :: l, widA ar' id i = widA ar id i) →
      LinksW ar' i R s l := by
  intro s l
  induction l generalizing s with
  | nil => intro _ _; trivial
  | cons m rest ih =>
    intro h hag
    obtain ⟨h1, h2⟩ := h
    exact ⟨by rw [hag s (by simp)]; exact h1,
      ih h2 fun id hid => hag id (List.mem_cons_of_mem s hid)⟩

theorem LinksW_R_congr {ar : List Node} {i : Nat} {R R' : Nat → Nat} {c : Nat} :
    ∀ {s : Nat} {l : List Nat}, (∀ x ∈ s :: l, R' x = R x + c) →
      LinksW ar i R s l → LinksW ar i R' s l := by
  intro s l
  induction l generalizing s with
  | nil => intro _ _; trivial
  | cons m rest ih =>
    intro hsh h
    obtain ⟨h1, h2⟩ := h
    refine ⟨?_, ih (fun x hx => hsh x (List.mem_cons_of_mem s hx)) h2⟩
    rw [hsh s (by simp), hsh m (by simp),
      show R m + c - (R s + c) = R m - R s from by omega]
    exact h1

theorem LinksW_split {ar : List Node} {i : Nat} {R : Nat → Nat} :
    ∀ {A : List Nat} {s : Nat} {B : List Nat}, LinksW ar i R s (A ++ B) →
      LinksW ar i R s A ∧ LinksW ar i R (A.getLastD s) B
  | [], _, _, h => ⟨trivial, h⟩
  | a :: A', s, B, h => by
    obtain ⟨h1, h2⟩ := h
    obtain ⟨h3, h4⟩ := LinksW_split h2
    exact ⟨⟨h1, h3⟩, by rw [List.getLastD_cons]; exact h4⟩

theorem LinksW_glue {ar : List Node} {i : Nat} {R : Nat → Nat} :
    ∀ {A : List Nat} {s : Nat} {B : List Nat},
      LinksW ar i R s A → LinksW ar i R (A.getLastD s) B →
      LinksW ar i R s (A ++ B)
  | [], _, _, _, h2 => h2
  | a :: A', s, B, h1, h2 => by
    obtain ⟨h3, h4⟩ := h1
    exact ⟨h3, LinksW_glue h4 (by rw [List.getLastD_cons] at h2; exact h2)⟩

/-- On a chain whose links and widths are honest, every non-nil forward
pointer's width is the rank gap. -/
theorem LinksW_fwd {ar : List Node} {i : Nat} {R : Nat → Nat} :
    ∀ {s : Nat} {l : List Nat}, Links ar i s l → LinksW ar i R s l →
      ∀ x ∈ s :: l, ∀ y, fwdA ar x i = some (some y) →
        widA ar x i = some (R y - R x) := by
  intro s l
  induction l generalizing s with
  | nil =>
    intro hL _ x hx y hf
    rcases List.mem_cons.mp hx with rfl | hx
    · have hL' : fwdA ar x i = some none := hL
      rw [hL'] at hf
      exact Option.noConfusion (Option.some.inj hf)
    · cases hx
  | cons m rest ih =>
    intro hL hW x hx y hf
    rcases List.mem_cons.mp hx with rfl | hx
    · rw [hL.1] at hf
      have hmy : m = y := Option.some.inj (Option.some.inj hf)
      rw [hW.1, hmy]
    · exact ih hL.2 hW.2 x hx y hf

/-! ### Freshly constructed lists and whole-trace preservation -/

/-- A freshly constructed list of any supported class satisfies the
invariant with no stored nodes. -/
theorem New_Inv {c : LevelClass} (hm : 1 ≤ classMaxLevel c) : Inv (New c) [] := by
  refine Inv.mk ?_ ?_ ?_ ?_ ?_ ?_ ?_ ?_ ?_ ?_ ?_ ?_ ?_
  · show 0 < 1
    omega
  · refine ⟨newNode none (classMaxLevel c), rfl, rfl, ?_, ?_⟩
    · show (List.replicate (classMaxLevel c) (none : Option Nat)).length
          = classMaxLevel c
      simp
    · show (List.replicate (classMaxLevel c) (0 : Nat)).length = classMaxLevel c
      simp
  · show 0 + 1 ≤ classMaxLevel c
    omega
  · intro id hid
    cases hid
  · intro id hid
    cases hid
  · simp
  · intro i hi
    have hi' : i < classMaxLevel c := hi
    show fwdA (New c).arena (New c).head i = some none
    show (List.replicate (classMaxLevel c) (none : Option Nat))[i]? = some none
    rw [List.getElem?_replicate]
    rw [if_pos hi']
  · exact List.Pairwise.nil
  · rfl
  · show 1 < U
    decide
  · simp [New]
  · simp [New]
  · intro h0 j hj
    exact absurd (show j < 0 from hj) (Nat.not_lt_zero j)

/-- Running any sequence of by-key inserts (with in-range level draws) and
deletes from an invariant state succeeds and preserves the invariant. -/
theorem runOps_keyOps {m : Nat} :
    ∀ (ops : List Op) (sl : SkipList) (ids : List Nat),
      Inv sl ids → sl.maxLevel = m →
      (∀ op ∈ ops, (∃ e h, op = Op.ins e h ∧ generateLevelSpec m h) ∨
        ∃ e, op = Op.del e) →
      ids.length + ops.length + 2 < U →
      ∃ sl' ids', runOps sl ops = some sl' ∧ Inv sl' ids' ∧
        sl'.maxLevel = m ∧ ids'.length ≤ ids.length + ops.length
  | [], sl, ids, hI, hm, _, _ => ⟨sl, ids, rfl, hI, hm, by omega⟩
  | op :: ops, sl, ids, hI, hm, hops, hlen => by
    have hlen' : ids.length + (op :: ops).length + 2 < U := hlen
    rw [List.length_cons] at hlen'
    rcases hops op (List.mem_cons_self _ _) with ⟨e, h, rfl, hg1, hg2⟩ | ⟨e, rfl⟩
    · obtain ⟨ret, sl1, ids1, heq, hI1, hmax1, -, hle1⟩ :=
        insert_run hI e h hg1 (by rw [hm]; exact hg2) (by omega)
      obtain ⟨sl', ids', heq', hI', hm', hle'⟩ :=
        runOps_keyOps ops sl1 ids1 hI1 (by rw [hmax1, hm])
          (fun o ho => hops o (List.mem_cons_of_mem _ ho)) (by omega)
      refine ⟨sl', ids', ?_, hI', hm', by rw [List.length_cons]; omega⟩
      have hstep : step sl (Op.ins e h) = some sl1 := by
        show (sl.insert e h).map (fun x => x.2) = some sl1
        rw [heq]
        rfl
      show List.foldlM step sl (Op.ins e h :: ops) = some sl'
      rw [List.foldlM_cons, hstep, bbind_some]
      exact heq'
    · obtain ⟨ret, sl1, ids1, heq, hI1, hmax1, -, hle1⟩ := delete_run hI e
      obtain ⟨sl', ids', heq', hI', hm', hle'⟩ :=
        runOps_keyOps ops sl1 ids1 hI1 (by rw [hmax1, hm])
          (fun o ho => hops o (List.mem_cons_of_mem _ ho)) (by omega)
      refine ⟨sl', ids', ?_, hI', hm', by rw [List.length_cons]; omega⟩
      have hstep : step sl (Op.del e) = some sl1 := by
        show (sl.delete e).map (fun x => x.2) = some sl1
        rw [heq]
        rfl
      show List.foldlM step sl (Op.del e :: ops) = some sl'
      rw [List.foldlM_cons, hstep, bbind_some]
      exact heq'

/-- On a strictly sorted id list, the first id with key at least a stored
key is that key's own node. -/
theorem firstGE_of_mem {ar : List Node} {ids : List Nat} {e : Entry} {nid : Nat}
    (hs : ids.Pairwise fun a b => keyD ar a < keyD ar b)
    (hmem : nid ∈ ids) (hkey : keyD ar nid = e.1) :
    firstGE ar e ids = some nid := by
  unfold firstGE
  have hsplit := (List.takeWhile_append_dropWhile
    (fun m => decide (keyD ar m < e.1)) ids).symm
  have hnidtw : nid ∉ ids.takeWhile fun m => decide (keyD ar m < e.1) := by
    intro hmemtw
    have := List.mem_takeWhile_imp hmemtw
    rw [hkey] at this
    simp at this
  have hniddw : nid ∈ ids.dropWhile fun m => decide (keyD ar m < e.1) := by
    have hm2 : nid ∈ (ids.takeWhile fun m => decide (keyD ar m < e.1))
        ++ ids.dropWhile fun m => decide (keyD ar m < e.1) := by
      rw [← hsplit]
      exact hmem
    rcases List.mem_append.mp hm2 with hx | hx
    · exact absurd hx hnidtw
    · exact hx
  rcases hdw : ids.dropWhile (fun m => decide (keyD ar m < e.1)) with _ | ⟨x, xs⟩
  · rw [hdw] at hniddw
    cases hniddw
  · rw [List.head?_cons]
    rw [hdw] at hniddw
    rcases List.mem_cons.mp hniddw with rfl | hmem'
    · rfl
    · exfalso
      have hxfalse : decide (keyD ar x < e.1) = false :=
        (head?_dropWhile_mem_false
          (show (ids.dropWhile fun m => decide (keyD ar m < e.1)).head? = some x
            from by rw [hdw]; rfl)).2
      have hsorted' : (x :: xs).Pairwise fun a b => keyD ar a < keyD ar b := by
        rw [← hdw]
        exact hs.sublist (List.dropWhile_sublist _)
      have hlt := (List.pairwise_cons.mp hsorted').1 nid hmem'
      rw [hkey] at hlt
      simp at hxfalse
      omega

/-! ### Claim theorems: counterexample-based claims -/

/-- Replay of the four-operation counterexample trace one step at a time:
insert keys 1, 2, 3 (key 2 drawn at height 3, the others at height 1) and
delete key 2. -/
theorem cexRun_eq : runOps (New .u8)
    [.ins (1, 10) 1, .ins (2, 20) 3, .ins (3, 30) 1, .del (2, 0)] = some
    ⟨8, 1, 2, 0,
      [⟨none, [some 1, none, none, none, none, none, none, none],
         [1, 1, 0, 0, 0, 0, 0, 0]⟩,
       ⟨some (1, 10), [some 3], [1]⟩,
       ⟨some (2, 20), [some 3, none, none], [1, 0, 0]⟩,
       ⟨some (3, 30), [none], [0]⟩],
      [some 1, some 0, some 0, some 0, none, none, none, none],
      [1, 0, 0, 0, 0, 0, 0, 0]⟩ := by
  have e1 : step (New .u8) (.ins (1, 10) 1) = some
      ⟨8, 1, 1, 0,
        [⟨none, [some 1, none, none, none, none, none, none, none],
           [1, 0, 0, 0, 0, 0, 0, 0]⟩,
         ⟨some (1, 10), [none], [0]⟩],
        [some 0, none, none, none, none, none, none, none],
        [0, 0, 0, 0, 0, 0, 0, 0]⟩ := rfl
  have e2 : step
      (⟨8, 1, 1, 0,
        [⟨none, [some 1, none, none, none, none, none, none, none],
           [1, 0, 0, 0, 0, 0, 0, 0]⟩,
         ⟨some (1, 10), [none], [0]⟩],
        [some 0, none, none, none, none, none, none, none],
        [0, 0, 0, 0, 0, 0, 0, 0]⟩ : SkipList) (.ins (2, 20) 3) = some
      ⟨8, 3, 2, 0,
        [⟨none, [some 1, some 2, some 2, none, none, none, none, none],
           [1, 2, 2, 0, 0, 0, 0, 0]⟩,
         ⟨some (1, 10), [some 2], [1]⟩,
         ⟨some (2, 20), [none, none, none], [0, 0, 0]⟩],
        [some 1, some 0, some 0, none, none, none, none, none],
        [1, 0, 0, 0, 0, 0, 0, 0]⟩ := rfl
  have e3 : step
      (⟨8, 3, 2, 0,
        [⟨none, [some 1, some 2, some 2, none, none, none, none, none],
           [1, 2, 2, 0, 0, 0, 0, 0]⟩,
         ⟨some (1, 10), [some 2], [1]⟩,
         ⟨some (2, 20), [none, none, none], [0, 0, 0]⟩],
        [some 1, some 0, some 0, none, none, none, none, none],
        [1, 0, 0, 0, 0, 0, 0, 0]⟩ : SkipList) (.ins (3, 30) 1) = some
      ⟨8, 3, 3, 0,
        [⟨none, [some 1, some 2, some 2, none, none, none, none, none],
           [1, 2, 2, 0, 0, 0, 0, 0]⟩,
         ⟨some (1, 10), [some 2], [1]⟩,
         ⟨some (2, 20), [some 3, none, none], [1, 0, 0]⟩,
         ⟨some (3, 30), [none], [0]⟩],
        [some 2, some 2, some 2, some 0, none, none, none, none],
        [2, 2, 2, 0, 0, 0, 0, 0]⟩ := rfl
  have e4 : step
      (⟨8, 3, 3, 0,
        [⟨none, [some 1, some 2, some 2, none, none, none, none, none],
           [1, 2, 2, 0, 0, 0, 0, 0]⟩,
         ⟨some (1, 10), [some 2], [1]⟩,
         ⟨some (2, 20), [some 3, none, none], [1, 0, 0]⟩,
         ⟨some (3, 30), [none], [0]⟩],
        [some 2, some 2, some 2, some 0, none, none, none, none],
        [2, 2, 2, 0, 0, 0, 0, 0]⟩ : SkipList) (.del (2, 0)) = some
      ⟨8, 1, 2, 0,
        [⟨none, [some 1, none, none, none, none, none, none, none],
           [1, 1, 0, 0, 0, 0, 0, 0]⟩,
         ⟨some (1, 10), [some 3], [1]⟩,
         ⟨some (2, 20), [some 3, none, none], [1, 0, 0]⟩,
         ⟨some (3, 30), [none], [0]⟩],
        [some 1, some 0, some 0, some 0, none, none, none, none],
        [1, 0, 0, 0, 0, 0, 0, 0]⟩ := rfl
  show List.foldlM step (New .u8) _ = _
  rw [List.foldlM_cons, e1, bbind_some, List.foldlM_cons, e2, bbind_some,
    List.foldlM_cons, e3, bbind_some, List.foldlM_cons, e4, bbind_some,
    List.foldlM_nil]
  rfl

/-- C4: refuted — position consistency fails on a reachable list.  After
inserting keys 1, 2, 3 (key 2 at height 3) and deleting key 2, the list
holds 2 entries, yet `ByPosition 0` dereferences a nil forward pointer
(the model's outer `none`), instead of returning the first entry. -/
theorem C4_byPosition_crash :
    (runOps (New .u8) [.ins (1, 10) 1, .ins (2, 20) 3, .ins (3, 30) 1,
        .del (2, 0)]).map SkipList.Len = some 2 ∧
    ((runOps (New .u8) [.ins (1, 10) 1, .ins (2, 20) 3, .ins (3, 30) 1,
        .del (2, 0)]).bind fun sl => sl.ByPosition 0) = none := by
  rw [cexRun_eq]
  exact ⟨rfl, rfl⟩

/-- C7: amended boundary — `SplitAt index` returns `(self, nil)` exactly when
`index + 1 ≥ num` (so also at `index = Len() - 1`, not only at
`index ≥ Len()`); below that boundary the split path runs and any returned
right handle is present. -/
theorem C7_splitAt_boundary (sl : SkipList) (index : Nat) (hU : index + 1 < U) :
    (sl.num ≤ index + 1 → sl.SplitAt index = some (sl, none)) ∧
    (index + 1 < sl.num →
      ∀ l r, sl.SplitAt index = some (l, r) → r.isSome = true) := by
  constructor
  · intro hge
    unfold SkipList.SplitAt
    rw [Nat.mod_eq_of_lt hU]
    exact if_pos hge
  · intro hlt l r heq
    unfold SkipList.SplitAt at heq
    rw [Nat.mod_eq_of_lt hU, if_neg (by omega)] at heq
    cases hsp : splitAt sl (index + 1) with
    | none =>
      rw [hsp] at heq
      cases heq
    | some p =>
      rw [hsp, bbind_some] at heq
      cases heq
      rfl

/-- C7 witness: the fresh `u8` list has 0 entries, so `SplitAt 3` hits the
boundary and returns the untouched handle with no right list. -/
theorem C7_splitAt_boundary_witness :
    (New .u8).SplitAt 3 = some (New .u8, none) :=
  (C7_splitAt_boundary (New .u8) 3 (by decide)).1 (by decide)

/-- C7 counterexample to the original boundary: on a singleton list,
`SplitAt 0` has `index = 0 < Len() = 1`, yet no split occurs — the left
handle keeps all entries and the right handle is absent. -/
theorem C7_splitAt_boundary_cex :
    (runOps (New .u8) [.ins (5, 50) 1]).map SkipList.Len = some 1 ∧
    (((runOps (New .u8) [.ins (5, 50) 1]).bind fun sl => sl.SplitAt 0).map
      fun p => (p.1.Len, p.2.isNone)) = some (1, true) :=
  ⟨rfl, rfl⟩

/-- C8: refuted — on the singleton list `{(5, 50)}`, the key 3 is absent
(`Get` returns nil for it), yet `GetWithPosition` returns the successor's
entry `(5, 50)` with rank 0 instead of the missing sentinel. -/
theorem C8_getWithPosition_missing :
    ((runOps (New .u8) [.ins (5, 50) 1]).bind
      fun sl => sl.GetWithPosition (3, 0)) = some (some (5, 50), 0) ∧
    ((runOps (New .u8) [.ins (5, 50) 1]).bind
      fun sl => sl.get1 (3, 0)) = some none :=
  ⟨rfl, rfl⟩

/-- C9: amended — `New` has no failure path at all.  Each supported uint
class sets the corresponding `maxLevel` from `{8, 16, 32, 64}`. -/
theorem C9_new_maxLevel :
    (New .u8).maxLevel = 8 ∧ (New .u16).maxLevel = 16 ∧
    (New .u32).maxLevel = 32 ∧ (New .u64).maxLevel = 64 ∧
    (New .uN).maxLevel = 64 :=
  ⟨rfl, rfl, rfl, rfl, rfl⟩

/-- C9 counterexample to the original: an unsupported argument class does
not fail with a `ConfigurationError` — `init`'s switch has no default, so
`New` silently returns a degenerate handle with `maxLevel = 0`, and the
first insert into it crashes. -/
theorem C9_new_other_cex :
    (New .other).maxLevel = 0 ∧ (New .other).insert (1, 1) 1 = none :=
  ⟨rfl, rfl⟩

/-- C10: refuted — after inserting keys 1, 2, 3 (key 2 at height 3) and
deleting key 2, the head's level-1 forward pointer is nil while its level-1
width is 1, and the subsequent read `ByPosition 1` steps onto the nil
pointer and crashes (the model's outer `none`). -/
theorem C10_nil_forward_width :
    ((runOps (New .u8) [.ins (1, 10) 1, .ins (2, 20) 3, .ins (3, 30) 1,
        .del (2, 0)]).bind fun sl => fwdA sl.arena sl.head 1) = some none ∧
    ((runOps (New .u8) [.ins (1, 10) 1, .ins (2, 20) 3, .ins (3, 30) 1,
        .del (2, 0)]).bind fun sl => widA sl.arena sl.head 1) = some 1 ∧
    ((runOps (New .u8) [.ins (1, 10) 1, .ins (2, 20) 3, .ins (3, 30) 1,
        .del (2, 0)]).bind fun sl => sl.ByPosition 1) = none := by
  rw [cexRun_eq]
  exact ⟨rfl, rfl, rfl⟩

/-- C3: order invariant — after any sequence of by-key inserts (with level
draws in the generator's range) and deletes from a freshly constructed
supported list, the level-0 forward chain from the head lists the stored
nodes in strictly ascending key order (hence no duplicate keys), and its
length is `Len()`. -/
theorem C3_order_invariant (c : LevelClass) (hc : 1 ≤ classMaxLevel c)
    (ops : List Op)
    (hops : ∀ op ∈ ops, (∃ e h, op = Op.ins e h ∧
      generateLevelSpec (classMaxLevel c) h) ∨ ∃ e, op = Op.del e)
    (hlen : ops.length + 2 < U) :
    ∃ sl ids, runOps (New c) ops = some sl ∧
      Links sl.arena 0 sl.head ids ∧
      ids.Pairwise (fun a b => keyD sl.arena a < keyD sl.arena b) ∧
      ids.length = sl.Len := by
  obtain ⟨sl, ids, heq, hI, hm, -⟩ :=
    runOps_keyOps ops (New c) [] (New_Inv hc)
      (show (New c).maxLevel = classMaxLevel c from rfl) hops
      (by simpa using hlen)
  refine ⟨sl, ids, heq, ?_, hI.sorted, hI.numEq.symm⟩
  have hchain0 := hI.chains 0 (by rw [hm]; omega)
  rwa [lvlIds_zero (hgt_pos hI)] at hchain0

/-- C3 witness: inserting keys 2 and 1 at height 1 and deleting key 2
leaves a sorted single-node chain of length `Len() = 1`. -/
theorem C3_order_invariant_witness :
    ∃ sl ids, runOps (New .u8)
        [Op.ins (2, 5) 1, Op.ins (1, 4) 1, Op.del (2, 0)] = some sl ∧
      Links sl.arena 0 sl.head ids ∧
      ids.Pairwise (fun a b => keyD sl.arena a < keyD sl.arena b) ∧
      ids.length = sl.Len :=
  C3_order_invariant .u8 (by decide)
    [Op.ins (2, 5) 1, Op.ins (1, 4) 1, Op.del (2, 0)]
    (by
      intro op hop
      rcases List.mem_cons.mp hop with rfl | hop
      · exact Or.inl ⟨(2, 5), 1, rfl, by decide, by decide⟩
      rcases List.mem_cons.mp hop with rfl | hop
      · exact Or.inl ⟨(1, 4), 1, rfl, by decide, by decide⟩
      rcases List.mem_cons.mp hop with rfl | hop
      · exact Or.inr ⟨(2, 0), rfl⟩
      · cases hop)
    (by decide)

/-- C5: inserting an entry whose key is already stored overwrites that
node's value in place and returns the previous entry: the count, the
level, every forward pointer and every width are unchanged (so every
other entry keeps its rank), only the matched node's entry changes. -/
theorem C5_insert_update {sl : SkipList} {ids : List Nat} (hI : Inv sl ids)
    (e : Entry) {nid : Nat} (hmem : nid ∈ ids)
    (hkey : keyD sl.arena nid = e.1) (h : Nat) :
    ∃ old sl', sl.insert e h = some (some old, sl') ∧
      entA sl.arena nid = some (some old) ∧
      sl'.num = sl.num ∧ sl'.level = sl.level ∧ sl'.head = sl.head ∧
      sl'.maxLevel = sl.maxLevel ∧
      (∀ id i, fwdA sl'.arena id i = fwdA sl.arena id i) ∧
      (∀ id i, widA sl'.arena id i = widA sl.arena id i) ∧
      entA sl'.arena nid = some (some e) ∧
      ∀ id, id ≠ nid → entA sl'.arena id = entA sl.arena id := by
  have hnum : sl.num ≠ 0 := by
    intro h0
    have h1 := hI.numEq
    rw [h0] at h1
    rw [List.length_eq_zero.mp h1.symm] at hmem
    cases hmem
  obtain ⟨p, c', pc', hsearch, hc'len, hpc'len, -, -, -⟩ := search_run hI e hnum
  have hfge := firstGE_of_mem hI.sorted hmem hkey
  obtain ⟨cv, hcv, -, hcveq⟩ :=
    cmpA_of_hasEnt (hasEnt_of_nodeOk (hI.nodesOk nid hmem)) e
  obtain ⟨n, hn⟩ := getElem?_isSome_of_lt (hI.idsLt nid hmem)
  have hsetE : setEntA sl.arena nid (some e)
      = some (sl.arena.set nid { n with entry := some e }) := by
    unfold setEntA
    rw [hn]
  obtain ⟨-, ⟨ent, hent⟩, -, -, -⟩ := nodeOk_shape (hI.nodesOk nid hmem)
  refine ⟨ent,
    { sl with arena := sl.arena.set nid { n with entry := some e },
              cache := c', posCache := pc' },
    ?_, hent, rfl, rfl, rfl, rfl, ?_, ?_, ?_, ?_⟩
  · unfold SkipList.insert
    rw [hsearch, bbind_some, hfge]
    show (cmpA sl.arena nid e).bind _ = _
    rw [hcv, Option.some_bind, if_pos (hcveq.mpr hkey)]
    show (entA sl.arena nid).bind _ = _
    rw [hent, Option.some_bind]
    show (setEntA sl.arena nid (some e)).bind _ = _
    rw [hsetE, Option.some_bind]
  · intro id i
    exact fwdA_setEntA hsetE id i
  · intro id i
    exact widA_setEntA hsetE id i
  · exact entA_setEntA_self hsetE
  · intro id hne
    exact entA_setEntA_ne hsetE id hne

/-- C5 witness: on the singleton list holding `(5, 50)`, inserting
`(5, 99)` returns the old entry and rewrites the value in place with the
count unchanged. -/
theorem C5_insert_update_witness :
    ∃ old sl',
      (⟨8, 1, 1, 0,
        [⟨none, [some 1, none, none, none, none, none, none, none],
           [1, 0, 0, 0, 0, 0, 0, 0]⟩,
         ⟨some (5, 50), [none], [0]⟩],
        [some 0, none, none, none, none, none, none, none],
        [0, 0, 0, 0, 0, 0, 0, 0]⟩ : SkipList).insert (5, 99) 1
        = some (some old, sl') ∧
      old = (5, 50) ∧ sl'.num = 1 ∧
      entA sl'.arena 1 = some (some (5, 99)) := by
  have hInvW : Inv
      (⟨8, 1, 1, 0,
        [⟨none, [some 1, none, none, none, none, none, none, none],
           [1, 0, 0, 0, 0, 0, 0, 0]⟩,
         ⟨some (5, 50), [none], [0]⟩],
        [some 0, none, none, none, none, none, none, none],
        [0, 0, 0, 0, 0, 0, 0, 0]⟩ : SkipList) [1] := by
    refine Inv.mk (by decide) ?_ (by decide) ?_ (by decide) (by decide)
      (by decide) (by decide) rfl (by decide) rfl rfl (by decide)
    · exact ⟨⟨none, [some 1, none, none, none, none, none, none, none],
        [1, 0, 0, 0, 0, 0, 0, 0]⟩, rfl, rfl, rfl, rfl⟩
    · intro id hid
      rcases List.mem_singleton.mp hid with rfl
      exact ⟨⟨some (5, 50), [none], [0]⟩, rfl, ⟨(5, 50), rfl⟩, rfl,
        by decide, by decide⟩
  obtain ⟨old, sl', heq, hold, hnum, -, -, -, -, -, hent, -⟩ :=
    C5_insert_update hInvW (5, 99) (show (1 : Nat) ∈ [1] by decide) rfl 1
  refine ⟨old, sl', heq, ?_, hnum, hent⟩
  exact Option.some.inj (Option.some.inj hold.symm)

end Skip
